import Mathlib

/-!
Verification of the orchestration core of the PropBot backend
(`src/backend/app`): the planner (`app/agent/intent.py`), the orchestration
engine (`app/agent/engine.py`), the streaming model client
(`app/llm/client.py`) and the tool contract (`app/agent/tools/base.py`).

The Python code is shallowly embedded: pure functions become Lean functions,
the stateful scheduling loop becomes explicit state passing over a fuel-indexed
loop, Python dictionaries become insertion-ordered association lists (matching
CPython dict semantics: updating an existing key keeps its position, a new key
is appended), and code that can raise returns `Except`/`Option`.  Calls to the
remote model, to tools and to the JSON parser are modelled as oracle inputs:
the embedded control flow is quantified over every outcome those calls can
produce.
-/

/-! ## Tool contract (`app/agent/tools/base.py`) -/

/-- Python run-time values, at the granularity `BaseTool._check_type` can
distinguish with `isinstance`: strings, ints, bools (in Python a subclass of
int, so `isinstance(True, int)` is true), floats, `None`, lists and dicts.
Payloads of floats/lists/dicts are irrelevant to validation, which inspects
only the type. -/
inductive PyVal where
  | str (s : String)
  | int (i : Int)
  | bool (b : Bool)
  | float
  | pynone
  | list
  | dict
  deriving DecidableEq, Repr

/-- Embeds `ToolParameter` (name, type, description, required, enum).  The
`enum` field is `None` or a list of strings, exactly as in the dataclass. -/
structure ToolParameter where
  name : String
  type : String
  description : String
  required : Bool
  enum : Option (List String)
  deriving DecidableEq, Repr

/-- Python equality of a run-time value against a `str` enum entry (used by
`value not in param.enum`): only a `str` can equal a `str`. -/
def pyEqStr (v : PyVal) (s : String) : Bool :=
  match v with
  | .str t => t == s
  | _ => false

/-- Embeds `BaseTool._check_type`: `string` ↦ `str`, `number` ↦ `(int, float)`
(which admits `bool`, a subclass of `int`), `integer` ↦ `int` (admits `bool`),
`boolean` ↦ `bool`; any other type string skips the check. -/
def checkType (value : PyVal) (expectedType : String) : Bool :=
  if expectedType == "string" then
    match value with
    | .str _ => true
    | _ => false
  else if expectedType == "number" then
    match value with
    | .int _ => true
    | .bool _ => true
    | .float => true
    | _ => false
  else if expectedType == "integer" then
    match value with
    | .int _ => true
    | .bool _ => true
    | _ => false
  else if expectedType == "boolean" then
    match value with
    | .bool _ => true
    | _ => false
  else
    true

/-- The three reasons `BaseTool.validate_params` can raise `ValueError`
(the Chinese f-string messages are abstracted to their category plus the
parameter name). -/
inductive ValidationError where
  | missingRequired (param : String)
  | typeMismatch (param : String)
  | enumViolation (param : String)
  deriving DecidableEq, Repr

/-- Embeds `BaseTool.validate_params`: walk the declared parameters in order;
raise on the first required-but-absent parameter, failed type check, or value
outside a declared (non-empty: Python truthiness of `param.enum`) enum.
`kwargs` is the keyword-argument dict. -/
def validateParams (params : List ToolParameter) (kwargs : List (String × PyVal)) :
    Except ValidationError Unit :=
  match params with
  | [] => .ok ()
  | p :: rest =>
    if p.required && !(kwargs.any (fun kv => kv.1 == p.name)) then
      .error (.missingRequired p.name)
    else
      match kwargs.lookup p.name with
      | none => validateParams rest kwargs
      | some v =>
        if !(checkType v p.type) then
          .error (.typeMismatch p.name)
        else
          match p.enum with
          | some es =>
            if !(es.isEmpty) && !(es.any (fun s => pyEqStr v s)) then
              .error (.enumViolation p.name)
            else
              validateParams rest kwargs
          | none => validateParams rest kwargs

/-- A single declared parameter passes validation against `kwargs`:
if required it is present, and if present its value type-checks and lies in
any declared non-empty enum. -/
def paramAccepts (kwargs : List (String × PyVal)) (p : ToolParameter) : Prop :=
  (p.required = true → (kwargs.any (fun kv => kv.1 == p.name)) = true) ∧
  (∀ v, kwargs.lookup p.name = some v →
    checkType v p.type = true ∧
    (∀ es, p.enum = some es → es.isEmpty = false →
      (es.any (fun s => pyEqStr v s)) = true))

theorem validateParams_ok_iff (params : List ToolParameter)
    (kwargs : List (String × PyVal)) :
    validateParams params kwargs = .ok () ↔ ∀ p ∈ params, paramAccepts kwargs p := by
  induction params with
  | nil => simp [validateParams]
  | cons p rest ih =>
    cases hreq : (p.required && !(kwargs.any (fun kv => kv.1 == p.name))) with
    | true =>
      rcases Bool.and_eq_true_iff.mp hreq with ⟨h1, h2⟩
      have hstep : validateParams (p :: rest) kwargs =
          .error (.missingRequired p.name) := by
        simp [validateParams, hreq]
      rw [hstep]
      constructor
      · intro h
        exact absurd h (by simp)
      · intro h
        have := (h p (List.mem_cons_self p rest)).1 h1
        rw [this] at h2
        exact absurd h2 (by simp)
    | false =>
      have hreq2 : p.required = true → (kwargs.any (fun kv => kv.1 == p.name)) = true := by
        intro hr
        cases hany : (kwargs.any (fun kv => kv.1 == p.name)) with
        | true => rfl
        | false => exact absurd hreq (by simp [hr, hany])
      cases hlook : kwargs.lookup p.name with
      | none =>
        have hpa : paramAccepts kwargs p := by
          refine ⟨hreq2, ?_⟩
          intro v hv
          rw [hlook] at hv
          exact absurd hv (by simp)
        have hstep : validateParams (p :: rest) kwargs = validateParams rest kwargs := by
          simp [validateParams, hreq, hlook]
        rw [hstep, ih]
        constructor
        · intro h q hq
          rcases List.mem_cons.mp hq with rfl | hq2
          · exact hpa
          · exact h q hq2
        · intro h q hq
          exact h q (List.mem_cons_of_mem p hq)
      | some v =>
        cases hct : checkType v p.type with
        | false =>
          have hstep : validateParams (p :: rest) kwargs =
              .error (.typeMismatch p.name) := by
            simp [validateParams, hreq, hlook, hct]
          rw [hstep]
          constructor
          · intro h
            exact absurd h (by simp)
          · intro h
            have := ((h p (List.mem_cons_self p rest)).2 v hlook).1
            rw [this] at hct
            exact absurd hct (by simp)
        | true =>
          cases hen : p.enum with
          | none =>
            have hstep : validateParams (p :: rest) kwargs = validateParams rest kwargs := by
              simp [validateParams, hreq, hlook, hct, hen]
            rw [hstep, ih]
            constructor
            · intro h q hq
              rcases List.mem_cons.mp hq with rfl | hq2
              · refine ⟨hreq2, ?_⟩
                intro w hw
                rw [hlook] at hw
                cases hw
                refine ⟨hct, ?_⟩
                intro es2 hes2 _
                rw [hen] at hes2
                exact absurd hes2 (by simp)
              · exact h q hq2
            · intro h q hq
              exact h q (List.mem_cons_of_mem p hq)
          | some es =>
            cases hev : (!(es.isEmpty) && !(es.any (fun s => pyEqStr v s))) with
            | true =>
              rcases Bool.and_eq_true_iff.mp hev with ⟨hne, hnang⟩
              have hstep : validateParams (p :: rest) kwargs =
                  .error (.enumViolation p.name) := by
                simp only [validateParams, hreq, hlook, hct, hen]
                simp [hev]
              rw [hstep]
              constructor
              · intro h
                exact absurd h (by simp)
              · intro h
                have := ((h p (List.mem_cons_self p rest)).2 v hlook).2 es hen
                  (by simpa using hne)
                rw [this] at hnang
                exact absurd hnang (by simp)
            | false =>
              have hstep : validateParams (p :: rest) kwargs = validateParams rest kwargs := by
                simp only [validateParams, hreq, hlook, hct, hen]
                simp [hev]
              rw [hstep, ih]
              constructor
              · intro h q hq
                rcases List.mem_cons.mp hq with rfl | hq2
                · refine ⟨hreq2, ?_⟩
                  intro w hw
                  rw [hlook] at hw
                  cases hw
                  refine ⟨hct, ?_⟩
                  intro es2 hes2 hne2
                  rw [hen] at hes2
                  cases hes2
                  rcases Bool.and_eq_false_iff.mp hev with h1 | h2
                  · rw [hne2] at h1
                    exact absurd h1 (by simp)
                  · simpa using h2
                · exact h q hq2
              · intro h q hq
                exact h q (List.mem_cons_of_mem p hq)

/-- C10: tool parameter validation accepts Python booleans for parameters
declared `integer` or `number` (bool is a subclass of int), accepts any value
for a declared type outside the four known type strings, and
`validate_params` rejects exactly when some declared parameter is
required-but-missing, type-mismatched under this mapping, or outside its
declared enum. -/
theorem c10_validate_params_typing :
    (∀ b : Bool, checkType (.bool b) "integer" = true ∧ checkType (.bool b) "number" = true) ∧
    (∀ (v : PyVal) (t : String), t ∉ ["string", "number", "integer", "boolean"] →
      checkType v t = true) ∧
    (∀ (params : List ToolParameter) (kwargs : List (String × PyVal)),
      validateParams params kwargs = .ok () ↔ ∀ p ∈ params, paramAccepts kwargs p) := by
  refine ⟨fun b => ⟨rfl, rfl⟩, ?_, validateParams_ok_iff⟩
  intro v t ht
  simp only [List.mem_cons, List.not_mem_nil, or_false, not_or] at ht
  obtain ⟨h1, h2, h3, h4⟩ := ht
  simp [checkType, beq_iff_eq, h1, h2, h3, h4]

/-- Witness for C10: the unknown type string `object` accepts a dict value,
a bool passes an `integer` declaration, and a concrete parameter list
validates. -/
theorem c10_validate_params_typing_witness :
    checkType PyVal.dict "object" = true ∧ checkType (PyVal.bool true) "integer" = true ∧
    validateParams
      [⟨"city", "string", "", true, none⟩, ⟨"years", "integer", "", false, none⟩]
      [("city", PyVal.str "nanning"), ("years", PyVal.bool true)] = .ok () := by
  exact ⟨c10_validate_params_typing.2.1 PyVal.dict "object" (by decide),
    (c10_validate_params_typing.1 true).1, rfl⟩


/-! ## Streaming model client: result accumulator (`app/llm/client.py`,
`StreamResultCollector`) -/

/-- The `function` fragment of a provider tool-call delta: possibly-absent
`name` and `arguments` keys. -/
structure FnFrag where
  name : Option String
  arguments : Option String
  deriving DecidableEq, Repr

/-- One entry of `delta.tool_calls` in a provider stream frame: positional
`index` (`tc.get("index", 0)` — the default is applied by the oracle producing
this record), possibly-absent `id`, `type` and `function`. -/
structure DeltaToolCall where
  index : Nat
  id : Option String
  type : Option String
  function : Option FnFrag
  deriving DecidableEq, Repr

/-- Embeds `StreamChunk`: text increment, optional tool-call deltas, optional
finish reason. -/
structure StreamChunk where
  content : String
  tool_calls : Option (List DeltaToolCall)
  finish_reason : Option String
  deriving DecidableEq, Repr

/-- A reassembled tool-call record, as stored in
`StreamResultCollector.tool_calls[index]`. -/
structure ToolCallRec where
  id : String
  type : String
  name : String
  arguments : String
  deriving DecidableEq, Repr

/-- The collector state: concatenated text, the `index -> record` dict as an
insertion-ordered association list, and the last finish reason. -/
structure CollectorState where
  content : String
  tool_calls : List (Nat × ToolCallRec)
  finish_reason : String
  deriving DecidableEq, Repr

/-- CPython dict update at an existing key: the value changes, the position
does not. -/
def dictUpdate (m : List (Nat × ToolCallRec)) (k : Nat) (v : ToolCallRec) :
    List (Nat × ToolCallRec) :=
  match m with
  | [] => []
  | kv :: rest =>
    if kv.1 == k then (k, v) :: dictUpdate rest k v else kv :: dictUpdate rest k v

/-- The argument fragment a delta carries:
`tc.get("function", {}).get("arguments", "")`. -/
def argsFragment (tc : DeltaToolCall) : String :=
  (tc.function.bind FnFrag.arguments).getD ""

/-- The record created by the first delta at an index: its id, type, name and
argument string, with the Python `get` defaults. -/
def freshRec (tc : DeltaToolCall) : ToolCallRec :=
  { id := tc.id.getD ""
    type := tc.type.getD "function"
    name := (tc.function.bind FnFrag.name).getD ""
    arguments := argsFragment tc }

/-- Embeds the per-delta body of `StreamResultCollector.add_chunk`: a new
index inserts a fresh record; an existing index appends the delta's
`function.arguments` (if both keys are present) to the stored argument
string. -/
def addToolCallDelta (m : List (Nat × ToolCallRec)) (tc : DeltaToolCall) :
    List (Nat × ToolCallRec) :=
  match m.lookup tc.index, tc.function with
  | none, _ => m ++ [(tc.index, freshRec tc)]
  | some r, some f =>
    match f.arguments with
    | some a => dictUpdate m tc.index { r with arguments := r.arguments ++ a }
    | none => m
  | some _, none => m

/-- Embeds `StreamResultCollector.add_chunk` (Python truthiness: empty
text, `None`/empty delta lists and `None`/empty finish reasons are
skipped). -/
def addChunk (s : CollectorState) (c : StreamChunk) : CollectorState :=
  let s1 := if c.content == "" then s else { s with content := s.content ++ c.content }
  let s2 :=
    match c.tool_calls with
    | some tcs => { s1 with tool_calls := tcs.foldl addToolCallDelta s1.tool_calls }
    | none => s1
  match c.finish_reason with
  | some fr => if fr == "" then s2 else { s2 with finish_reason := fr }
  | none => s2

/-- Runs a whole stream of chunks through a fresh collector. -/
def runCollector (chunks : List StreamChunk) : CollectorState :=
  chunks.foldl addChunk { content := "", tool_calls := [], finish_reason := "" }

/-- The result list `StreamResult.tool_calls = list(self.tool_calls.values())`
of `get_result`, in insertion order. -/
def collectedToolCalls (chunks : List StreamChunk) : List ToolCallRec :=
  (runCollector chunks).tool_calls.map Prod.snd

/-- All tool-call deltas of a chunk list, in arrival order, restricted to one
positional index. -/
def deltasAt (chunks : List StreamChunk) (i : Nat) : List DeltaToolCall :=
  (chunks.flatMap (fun c => c.tool_calls.getD [])).filter (fun tc => tc.index == i)

/-- Concatenation of a list of strings (left to right). -/
def strConcat (l : List String) : String :=
  l.foldr (fun a b => a ++ b) ""


theorem lookup_dictUpdate_self (m : List (Nat × ToolCallRec)) (k : Nat)
    (v : ToolCallRec) :
    (dictUpdate m k v).lookup k = (m.lookup k).map (fun _ => v) := by
  induction m with
  | nil => simp [dictUpdate]
  | cons kv rest ih =>
    cases h : (kv.1 == k) with
    | true =>
      have hk : kv.1 = k := by simpa using h
      subst hk
      simp [dictUpdate, List.lookup]
    | false =>
      have hne : ¬ kv.1 = k := by simpa using h
      have hk : (k == kv.1) = false := by simpa using (Ne.symm hne)
      simp [dictUpdate, h, List.lookup, hk, ih]

theorem lookup_dictUpdate_ne (m : List (Nat × ToolCallRec)) (k : Nat)
    (v : ToolCallRec) (j : Nat) (hjk : (j == k) = false) :
    (dictUpdate m k v).lookup j = m.lookup j := by
  induction m with
  | nil => simp [dictUpdate]
  | cons kv rest ih =>
    cases h : (kv.1 == k) with
    | true =>
      have hk : kv.1 = k := by simpa using h
      have hj : (j == kv.1) = false := by rw [hk]; exact hjk
      simp [dictUpdate, h, List.lookup, hjk, hj, ih]
    | false =>
      cases hj : (j == kv.1) with
      | true => simp [dictUpdate, h, List.lookup, hj]
      | false => simp [dictUpdate, h, List.lookup, hj, ih]

theorem lookup_append_single (m : List (Nat × ToolCallRec)) (k : Nat) (v : ToolCallRec)
    (j : Nat) :
    (m ++ [(k, v)]).lookup j = match m.lookup j with
      | some r => some r
      | none => if j == k then some v else none := by
  induction m with
  | nil => cases h : (j == k) <;> simp [List.lookup, h]
  | cons kv rest ih =>
    cases h : (j == kv.1) with
    | true => simp [List.lookup, h]
    | false => simpa [List.lookup, h] using ih

/-- The record the spec predicts for the delta sequence `first :: rest` at one
index: id, type and name from the first delta, arguments the concatenation of
every argument fragment. -/
def specRec (first : DeltaToolCall) (rest : List DeltaToolCall) : ToolCallRec :=
  { id := first.id.getD ""
    type := first.type.getD "function"
    name := (first.function.bind FnFrag.name).getD ""
    arguments := strConcat ((first :: rest).map argsFragment) }

theorem foldl_addToolCallDelta_lookup (ds : List DeltaToolCall)
    (m : List (Nat × ToolCallRec)) (i : Nat) :
    (ds.foldl addToolCallDelta m).lookup i =
      match m.lookup i with
      | some r => some { r with arguments :=
          r.arguments ++ strConcat ((ds.filter (fun tc => tc.index == i)).map argsFragment) }
      | none =>
        match ds.filter (fun tc => tc.index == i) with
        | [] => none
        | first :: rest => some (specRec first rest) := by
  induction ds generalizing m with
  | nil =>
    cases h : m.lookup i with
    | none => simp [h]
    | some r => simp [h, strConcat]
  | cons d ds ih =>
    rw [List.foldl_cons, ih]
    cases hd : (d.index == i) with
    | false =>
      have hne : (i == d.index) = false := by
        have h2 : ¬ d.index = i := by simpa using hd
        simpa using fun e => h2 e.symm
      have hlook : (addToolCallDelta m d).lookup i = m.lookup i := by
        cases hmd : m.lookup d.index with
        | none =>
          simp only [addToolCallDelta, hmd]
          rw [lookup_append_single]
          cases hm : m.lookup i with
          | none => simp [hne]
          | some r => simp
        | some r =>
          cases hf : d.function with
          | none => simp [addToolCallDelta, hmd, hf]
          | some f =>
            cases ha : f.arguments with
            | none => simp [addToolCallDelta, hmd, hf, ha]
            | some a =>
              simp only [addToolCallDelta, hmd, hf, ha]
              exact lookup_dictUpdate_ne m d.index _ i hne
      rw [hlook]
      simp [List.filter_cons, hd]
    | true =>
      have hidx : d.index = i := by simpa using hd
      simp only [List.filter_cons, hd, if_true]
      cases hm : m.lookup i with
      | none =>
        have hmd : m.lookup d.index = none := by rw [hidx]; exact hm
        have hlook : (addToolCallDelta m d).lookup i = some (freshRec d) := by
          simp only [addToolCallDelta, hmd]
          rw [lookup_append_single, hm, hidx]
          simp
        rw [hlook]
        simp [specRec, freshRec, strConcat]
      | some r =>
        have hmd : m.lookup d.index = some r := by rw [hidx]; exact hm
        cases hf : d.function with
        | none =>
          have hlook : addToolCallDelta m d = m := by
            simp [addToolCallDelta, hmd, hf]
          rw [hlook, hm]
          have hfrag : argsFragment d = "" := by simp [argsFragment, hf]
          simp [hfrag, strConcat]
        | some f =>
          cases ha : f.arguments with
          | none =>
            have hlook : addToolCallDelta m d = m := by
              simp [addToolCallDelta, hmd, hf, ha]
            rw [hlook, hm]
            have hfrag : argsFragment d = "" := by simp [argsFragment, hf, ha]
            simp [hfrag, strConcat]
          | some a =>
            have hlook : (addToolCallDelta m d).lookup i =
                some { r with arguments := r.arguments ++ a } := by
              simp only [addToolCallDelta, hmd, hf, ha]
              rw [hidx, lookup_dictUpdate_self, hm]
              rfl
            rw [hlook]
            have hfrag : argsFragment d = a := by simp [argsFragment, hf, ha]
            simp [hfrag, strConcat, String.append_assoc]

theorem foldl_addChunk_toolCalls (chunks : List StreamChunk) (s : CollectorState) :
    (chunks.foldl addChunk s).tool_calls =
      (chunks.flatMap (fun c => c.tool_calls.getD [])).foldl addToolCallDelta s.tool_calls := by
  induction chunks generalizing s with
  | nil => simp
  | cons c cs ih =>
    rw [List.foldl_cons, ih, List.flatMap_cons, List.foldl_append]
    have hc : (addChunk s c).tool_calls =
        (c.tool_calls.getD []).foldl addToolCallDelta s.tool_calls := by
      unfold addChunk
      cases hts : c.tool_calls with
      | none =>
        cases hfr : c.finish_reason with
        | none => cases h : (c.content == "") <;> simp [h]
        | some fr =>
          cases h : (c.content == "") <;> cases h2 : (fr == "") <;> simp [h, h2]
      | some tcs =>
        cases hfr : c.finish_reason with
        | none => cases h : (c.content == "") <;> simp [h]
        | some fr =>
          cases h : (c.content == "") <;> cases h2 : (fr == "") <;> simp [h, h2]
    rw [hc]

/-- C4: in the streaming result accumulator, the first delta arriving at a
positional index creates the tool-call record (taking that delta's id, name
and argument string), and every later delta at the same index appends its
argument fragment; in particular the delta sequence
(index 0, name f, arguments `{"a":`) followed by (index 0, arguments `1}`)
yields exactly one tool call named `f` whose argument string is the
concatenation `{"a":1}` of the two fragments. -/
theorem c4_stream_tool_call_reassembly :
    (∀ (chunks : List StreamChunk) (i : Nat),
      (runCollector chunks).tool_calls.lookup i =
        match deltasAt chunks i with
        | [] => none
        | first :: rest => some (specRec first rest)) ∧
    collectedToolCalls
      [⟨"", some [⟨0, none, none, some ⟨some "f", some "\x7b\"a\":"⟩⟩], none⟩,
       ⟨"", some [⟨0, none, none, some ⟨none, some "1\x7d"⟩⟩], some "tool_calls"⟩] =
      [⟨"", "function", "f", "\x7b\"a\":1\x7d"⟩] := by
  constructor
  · intro chunks i
    unfold runCollector deltasAt
    rw [foldl_addChunk_toolCalls, foldl_addToolCallDelta_lookup]
    simp [List.lookup]
  · rfl

/-! ## Streaming model client: failure taxonomy (`app/llm/client.py`,
`DeepSeekClient.chat` and `_check_response_status`) -/

/-- An `LLMError`: stable numeric code plus message, as carried by the
exception hierarchy (`LLMTimeoutError` 1001, `LLMAuthError` 1002,
`LLMRateLimitError` 1003, `LLMUnknownError` 1099). -/
structure LLMErr where
  code : Nat
  message : String
  deriving DecidableEq, Repr

/-- Outcome of extracting an error message from a non-200 response body,
`response.json().get("error", \x7b\x7d).get("message", "未知错误")` guarded by
`except Exception`: the body parsed and carried a message (provider text!),
the body parsed without one, or `.json()` raised. -/
inductive ErrBodyParse where
  | jsonMsg (msg : String)
  | jsonNoMsg
  | unparsable
  deriving DecidableEq, Repr

/-- The message text `_check_response_status` interpolates for an
other-than-200/401/429/5xx status: the provider body message when one parsed,
the fallback `未知错误` when the body parsed without one, and
`HTTP <status>` when the body did not parse. -/
def renderErrBody (status : Nat) (body : ErrBodyParse) : String :=
  match body with
  | .jsonMsg m => m
  | .jsonNoMsg => "未知错误"
  | .unparsable => "HTTP " ++ toString status

/-- Embeds `DeepSeekClient._check_response_status`: 401, then 429, then >=500
are mapped to fixed errors; any other non-200 status raises the generic error
with the message extracted from the response body interpolated. `none` means
the check passes (status 200). -/
def checkResponseStatus (status : Nat) (body : ErrBodyParse) : Option LLMErr :=
  if status == 401 then some ⟨1002, "服务配置错误，请联系管理员"⟩
  else if status == 429 then some ⟨1003, "请求过于频繁，请稍后重试"⟩
  else if 500 ≤ status then some ⟨1099, "DeepSeek 服务暂时不可用，请稍后重试"⟩
  else if status != 200 then
    some ⟨1099, "API 调用失败: " ++ renderErrBody status body⟩
  else none

/-- What the transport layer produced for one `chat` call: `httpx` timeout,
`httpx` connection failure, an HTTP response (status, error-body parse used on
non-200, and the `Except` result of parsing the 200 payload, whose error text
is `str(e)` of the raised exception), or any other exception with its
`str(e)`. -/
inductive TransportOutcome where
  | timeout
  | connectError
  | response (status : Nat) (errBody : ErrBodyParse) (payload : Except String Unit)
  | otherError (msg : String)
  deriving Repr

/-- Embeds the `try`/`except` ladder of `DeepSeekClient.chat`: status checking
via `_check_response_status`, `httpx.TimeoutException` to `LLMTimeoutError`,
`httpx.ConnectError` to a connection-specific `LLMUnknownError`, re-raising
`LLMError`, and a catch-all wrapping `str(e)`. -/
def chatResult (o : TransportOutcome) : Except LLMErr Unit :=
  match o with
  | .timeout => .error ⟨1001, "服务响应超时，请稍后重试"⟩
  | .connectError => .error ⟨1099, "无法连接到 DeepSeek 服务，请检查网络"⟩
  | .response status errBody payload =>
    match checkResponseStatus status errBody with
    | some e => .error e
    | none =>
      match payload with
      | .ok () => .ok ()
      | .error m => .error ⟨1099, "调用 DeepSeek API 时发生错误: " ++ m⟩
  | .otherError m => .error ⟨1099, "调用 DeepSeek API 时发生错误: " ++ m⟩

/-- C7 counterexample: an HTTP 400 response whose body carries the provider
message `SECRET-PROVIDER-TEXT` makes `chat` raise `LLMUnknownError` with that
provider-internal text embedded in its message — refuting the claim that no
raised error message ever contains text taken from the provider response
body. -/
theorem c7_counterexample_provider_text_leak :
    chatResult (.response 400 (.jsonMsg "SECRET-PROVIDER-TEXT") (.ok ())) =
      .error ⟨1099, "API 调用失败: " ++ "SECRET-PROVIDER-TEXT"⟩ := by
  rfl

/-- C7 (amended): every error `chat` raises carries one of the stable codes
1001 (transport timeout, retryable), 1002 (HTTP 401, auth), 1003 (HTTP 429,
rate limit), 1099 (connection failure, HTTP >=500, malformed payload, other
statuses, unexpected exceptions); timeouts, connection failures, 401, 429 and
>=500 carry fixed safe messages — but a non-200 status other than 401/429/5xx
interpolates the provider body message, and a malformed 200 payload or an
unexpected exception interpolates `str(e)`. -/
theorem c7_error_taxonomy_amended :
    chatResult .timeout = .error ⟨1001, "服务响应超时，请稍后重试"⟩ ∧
    chatResult .connectError = .error ⟨1099, "无法连接到 DeepSeek 服务，请检查网络"⟩ ∧
    (∀ b p, chatResult (.response 401 b p) = .error ⟨1002, "服务配置错误，请联系管理员"⟩) ∧
    (∀ b p, chatResult (.response 429 b p) = .error ⟨1003, "请求过于频繁，请稍后重试"⟩) ∧
    (∀ st b p, 500 ≤ st →
      chatResult (.response st b p) = .error ⟨1099, "DeepSeek 服务暂时不可用，请稍后重试"⟩) ∧
    (∀ b m, chatResult (.response 200 b (.error m)) =
      .error ⟨1099, "调用 DeepSeek API 时发生错误: " ++ m⟩) ∧
    (∀ b, chatResult (.response 200 b (.ok ())) = .ok ()) ∧
    (∀ st b p, st ≠ 401 → st ≠ 429 → st < 500 → st ≠ 200 →
      chatResult (.response st b p) = .error ⟨1099, "API 调用失败: " ++ renderErrBody st b⟩) ∧
    (∀ m, chatResult (.otherError m) =
      .error ⟨1099, "调用 DeepSeek API 时发生错误: " ++ m⟩) := by
  refine ⟨rfl, rfl, fun b p => rfl, fun b p => rfl, ?_, fun b m => rfl, fun b => rfl, ?_, fun m => rfl⟩
  · intro st b p h
    have h1 : (st == 401) = false := by simp; omega
    have h2 : (st == 429) = false := by simp; omega
    simp [chatResult, checkResponseStatus, h1, h2, h]
  · intro st b p h1 h2 h3 h4
    have b1 : (st == 401) = false := by simp [h1]
    have b2 : (st == 429) = false := by simp [h2]
    have b3 : ¬ (500 ≤ st) := by omega
    have b4 : (st != 200) = true := by simp [h4]
    simp [chatResult, checkResponseStatus, b1, b2, b3, b4]

/-- Witness for C7: the amended taxonomy applied at HTTP 503 (fixed safe
message) and at HTTP 404 with a parse-failed body. -/
theorem c7_error_taxonomy_amended_witness :
    chatResult (.response 503 .jsonNoMsg (.ok ())) =
      .error ⟨1099, "DeepSeek 服务暂时不可用，请稍后重试"⟩ ∧
    chatResult (.response 404 .unparsable (.ok ())) =
      .error ⟨1099, "API 调用失败: " ++ renderErrBody 404 .unparsable⟩ := by
  exact ⟨c7_error_taxonomy_amended.2.2.2.2.1 503 .jsonNoMsg (.ok ()) (by omega),
    c7_error_taxonomy_amended.2.2.2.2.2.2.2.1 404 .unparsable (.ok ())
      (by omega) (by omega) (by omega) (by omega)⟩

/-! ## Planner (`app/agent/intent.py`) -/

/-- Embeds `ExecutionNode`: a specialist role id plus the role ids it depends
on. -/
structure ExecutionNode where
  role_id : String
  depends_on : List String
  deriving DecidableEq, Repr

/-- The `role_id` projection of a node list (Python `[node.role_id for node in
nodes]`). -/
def nodeRoleIds (nodes : List ExecutionNode) : List String :=
  nodes.map ExecutionNode.role_id

/-- First-occurrence deduplication: the key order of a CPython dict built by
comprehension over the list (re-assignment keeps the original position). -/
def dedupFirstAux (seen : List String) : List String → List String
  | [] => []
  | a :: l =>
    if seen.contains a then dedupFirstAux seen l
    else a :: dedupFirstAux (seen ++ [a]) l

/-- See `dedupFirstAux`; the whole list with only first occurrences kept. -/
def dedupFirst (xs : List String) : List String :=
  dedupFirstAux [] xs

/-- The edges `_validate_dag` builds: for each node and each of its
dependencies that names some node of the plan (`if dep in role_ids`), one edge
`(dep, node.role_id)`, in node-major, dependency-minor order — exactly the
order of `graph[dep].append(node.role_id)` / `in_degree[...] += 1`.  This is
the dependency graph of the plan, with multiplicities. -/
def planEdges (nodes : List ExecutionNode) : List (String × String) :=
  nodes.flatMap (fun n =>
    (n.depends_on.filter (fun d => (nodeRoleIds nodes).contains d)).map
      (fun d => (d, n.role_id)))

/-- The initial in-degree table of `_validate_dag` (as an integer, since the
Python counters can in principle be decremented below zero). -/
def initInDeg (nodes : List ExecutionNode) (v : String) : Int :=
  (((planEdges nodes).filter (fun e => e.2 == v)).length : Int)

/-- The adjacency list `graph[u]` of `_validate_dag`. -/
def adjOut (nodes : List ExecutionNode) (u : String) : List String :=
  ((planEdges nodes).filter (fun e => e.1 == u)).map Prod.snd

/-- One pass of the inner `for neighbor in graph[current]` loop of
`_validate_dag`: decrement each neighbour in order, appending to the queue
(`acc`) every neighbour whose counter hits exactly zero. -/
def decNeighbors (neigh : List String) (deg : String → Int) (acc : List String) :
    (String → Int) × List String :=
  match neigh with
  | [] => (deg, acc)
  | v :: vs =>
    let d := deg v - 1
    decNeighbors vs (fun w => if w == v then d else deg w)
      (if d == 0 then acc ++ [v] else acc)

/-- The state of the Kahn topological-sort loop in `_validate_dag`:
the in-degree table, the FIFO queue, and the processed (visited) ids in
order.  `visited` in the Python code is `processed.length`. -/
structure KahnState where
  deg : String → Int
  queue : List String
  processed : List String

/-- The `while queue:` loop of `_validate_dag`, fuel-indexed.  Each iteration
pops the queue front, decrements its out-neighbours and appends the
newly-zero ones.  Every id enters the queue at most once (initially when its
in-degree is zero, or at the single moment its counter reaches zero), so the
loop runs at most one iteration per distinct id; `kahnLoop_queue_empty` below
shows fuel `nodes.length` always drains the queue, making the fuel-indexed
model equal to the unbounded Python loop. -/
def kahnLoop (nodes : List ExecutionNode) : Nat → KahnState → KahnState
  | 0, s => s
  | fuel + 1, s =>
    match s.queue with
    | [] => s
    | current :: rest =>
      let r := decNeighbors (adjOut nodes current) s.deg []
      kahnLoop nodes fuel
        { deg := r.1, queue := rest ++ r.2, processed := s.processed ++ [current] }

/-- The initial Kahn state: in-degrees as built by `_validate_dag`, queue the
zero-in-degree ids in dict (first-occurrence) order, nothing processed. -/
def kahnInit (nodes : List ExecutionNode) : KahnState :=
  { deg := initInDeg nodes
    queue := (dedupFirst (nodeRoleIds nodes)).filter (fun v => initInDeg nodes v == 0)
    processed := [] }

/-- Embeds `IntentRecognizer._validate_dag`: run Kahn topological sort and
report whether the number of visited ids equals the number of nodes. -/
def validateDag (nodes : List ExecutionNode) : Bool :=
  (kahnLoop nodes nodes.length (kahnInit nodes)).processed.length == nodes.length

/-- The cycle-neutralization step of `_parse_plan_response`: when
`_validate_dag` fails, every node's `depends_on` is cleared in place; the
nodes themselves (and their order) are kept. -/
def neutralizePlan (nodes : List ExecutionNode) : List ExecutionNode :=
  if validateDag nodes then nodes
  else nodes.map (fun n => { n with depends_on := [] })

/-- Modelled from the spec: the roles module `app.agent.roles` is absent from
`src/` (only its callers and tests are present).  The spec fixes four
specialists — the planner system prompt in `intent.py` enumerates
`financial_advisor`, `policy_expert`, `market_analyst` and
`purchase_consultant` (the distinguished synthesizer) — and `get_role`
returns a role exactly for these ids and `None` otherwise. -/
def validRoleIds : List String :=
  ["financial_advisor", "policy_expert", "market_analyst", "purchase_consultant"]

/-- Truth of `get_role(rid)` as a lookup success (see `validRoleIds`). -/
def isValidRole (rid : String) : Bool :=
  validRoleIds.contains rid

/-- One entry of the planner reply's `nodes` array, after JSON decoding:
possibly-absent `role_id` and `depends_on` keys (`node_data.get`). -/
structure RawNode where
  role_id : Option String
  depends_on : Option (List String)
  deriving DecidableEq, Repr

/-- The node-extraction loop of `_parse_plan_response`: keep a node only when
`get_role(role_id)` succeeds, and keep only the dependencies that name known
roles (`[d for d in depends_on if get_role(d)]`). -/
def parsePlanNodes (raw : List RawNode) : List ExecutionNode :=
  raw.filterMap (fun rn =>
    let rid := rn.role_id.getD ""
    if isValidRole rid then
      some { role_id := rid, depends_on := (rn.depends_on.getD []).filter isValidRole }
    else none)

/-- Embeds `ExecutionPlan`: ordered nodes plus the rationale string. -/
structure ExecutionPlan where
  nodes : List ExecutionNode
  reason : String
  deriving DecidableEq, Repr

/-- The degraded single-node synthesizer plan the planner falls back to. -/
def defaultPlan (reason : String) : ExecutionPlan :=
  { nodes := [{ role_id := "purchase_consultant", depends_on := [] }], reason }

/-- What the regex/JSON stage of `_parse_plan_response` produced from the
model reply: no braced block found (`ValueError("No JSON found in
response")`), `json.loads` raised (with `str(e)`), or a decoded object with
its `nodes` array and `reason` string (`data.get` defaults applied by the
oracle). -/
inductive PlanReply where
  | noJson
  | badJson (msg : String)
  | parsed (nodes : List RawNode) (reason : String)
  deriving DecidableEq, Repr

/-- Embeds `_parse_plan_response` from the decode outcome on: invalid JSON is
caught and degrades to the default plan with the failure text in the
rationale; no valid node degrades likewise; otherwise cycles are neutralized
and the plan is returned. -/
def parsePlanResponse (reply : PlanReply) : ExecutionPlan :=
  match reply with
  | .noJson => defaultPlan ("解析失败，使用默认角色: " ++ "No JSON found in response")
  | .badJson m => defaultPlan ("解析失败，使用默认角色: " ++ m)
  | .parsed raw reason =>
    if (parsePlanNodes raw).isEmpty then defaultPlan "解析结果为空，使用默认角色"
    else { nodes := neutralizePlan (parsePlanNodes raw), reason }

/-- How `_plan_with_llm` ended, seen from `plan_execution`: the model call
raised `LLMError`; some other exception escaped (for example ill-typed JSON
values raising `AttributeError`/`TypeError` during node extraction), carrying
`str(e)`; or a reply was obtained and decoded as `PlanReply`. -/
inductive PlanLLMOutcome where
  | llmFailure (e : LLMErr)
  | unexpected (msg : String)
  | reply (r : PlanReply)
  deriving Repr

/-- Python `str.strip()` with the default whitespace set, over the character
list (drop leading and trailing whitespace). -/
def pyStrip (s : String) : String :=
  String.mk (((s.toList.dropWhile Char.isWhitespace).reverse.dropWhile
    Char.isWhitespace).reverse)

/-- Embeds `IntentRecognizer.plan_execution`: strip the input; empty input
returns the default plan; an `LLMError` or any other exception degrades to
the default plan with the failure reason in the rationale; otherwise the
reply is parsed. -/
def planExecution (userInput : String) (o : PlanLLMOutcome) : ExecutionPlan :=
  if pyStrip userInput == "" then defaultPlan "空输入，使用默认角色"
  else
    match o with
    | .llmFailure e => defaultPlan ("LLM 调用失败，使用默认角色: " ++ e.message)
    | .unexpected m => defaultPlan ("规划失败，使用默认角色: " ++ m)
    | .reply r => parsePlanResponse r

/-- Embeds `ExecutionPlan.get_ready_nodes`: the not-yet-completed nodes all
of whose dependencies are completed, in plan order. -/
def getReadyNodes (nodes : List ExecutionNode) (completed : List String) :
    List ExecutionNode :=
  nodes.filter (fun n =>
    !(completed.contains n.role_id) && n.depends_on.all (fun d => completed.contains d))

/-- C5: `plan_execution` never raises: it returns a non-empty plan for every
input and oracle outcome; whitespace-only input returns the single-node
synthesizer plan; a model-call failure, an unexpected exception, a JSON-free
reply and an unparsable reply all return the single-node synthesizer plan
with the failure reason recorded in the rationale. -/
theorem c5_plan_execution_total (s : String) (o : PlanLLMOutcome) :
    (planExecution s o).nodes ≠ [] ∧
    (pyStrip s = "" → planExecution s o = defaultPlan "空输入，使用默认角色") ∧
    (pyStrip s ≠ "" → ∀ e, o = .llmFailure e →
      planExecution s o = defaultPlan ("LLM 调用失败，使用默认角色: " ++ e.message)) ∧
    (pyStrip s ≠ "" → ∀ m, o = .unexpected m →
      planExecution s o = defaultPlan ("规划失败，使用默认角色: " ++ m)) ∧
    (pyStrip s ≠ "" → o = .reply .noJson →
      planExecution s o =
        defaultPlan ("解析失败，使用默认角色: " ++ "No JSON found in response")) ∧
    (pyStrip s ≠ "" → ∀ m, o = .reply (.badJson m) →
      planExecution s o = defaultPlan ("解析失败，使用默认角色: " ++ m)) := by
  refine ⟨?_, ?_, ?_, ?_, ?_, ?_⟩
  · unfold planExecution
    cases htrim : (pyStrip s == "") with
    | true => simp [defaultPlan]
    | false =>
      simp only [Bool.false_eq_true, if_false]
      cases o with
      | llmFailure e => simp [defaultPlan]
      | unexpected m => simp [defaultPlan]
      | reply r =>
        cases r with
        | noJson => simp [parsePlanResponse, defaultPlan]
        | badJson m => simp [parsePlanResponse, defaultPlan]
        | parsed raw reason =>
          simp only [parsePlanResponse]
          cases hn : (parsePlanNodes raw).isEmpty with
          | true => simp [hn, defaultPlan]
          | false =>
            simp only [hn, Bool.false_eq_true, if_false, ne_eq]
            intro hcontra
            have : (parsePlanNodes raw) ≠ [] := by
              intro h
              rw [h] at hn
              exact absurd hn (by simp)
            apply this
            have h2 := congrArg List.length hcontra
            unfold neutralizePlan at h2
            cases hv : validateDag (parsePlanNodes raw) with
            | true =>
              rw [hv] at h2
              simp at h2
              exact h2
            | false =>
              rw [hv] at h2
              simp at h2
              exact h2
  · intro h
    unfold planExecution
    simp [h]
  · intro h e he
    subst he
    unfold planExecution
    simp [h]
  · intro h m hm
    subst hm
    unfold planExecution
    simp [h, parsePlanResponse]
  · intro h hr
    subst hr
    unfold planExecution
    simp [h, parsePlanResponse]
  · intro h m hm
    subst hm
    unfold planExecution
    simp [h, parsePlanResponse]

/-- Witness for C5: empty input, a timeout failure, and a JSON-free reply,
each at a concrete input. -/
theorem c5_plan_execution_total_witness :
    planExecution "   " (.reply .noJson) = defaultPlan "空输入，使用默认角色" ∧
    planExecution "南宁限购吗" (.llmFailure ⟨1001, "服务响应超时，请稍后重试"⟩) =
      defaultPlan ("LLM 调用失败，使用默认角色: " ++ "服务响应超时，请稍后重试") ∧
    planExecution "南宁限购吗" (.reply .noJson) =
      defaultPlan ("解析失败，使用默认角色: " ++ "No JSON found in response") := by
  refine ⟨(c5_plan_execution_total "   " (.reply .noJson)).2.1 (by decide), ?_, ?_⟩
  · exact (c5_plan_execution_total "南宁限购吗" _).2.2.1 (by decide) _ rfl
  · exact (c5_plan_execution_total "南宁限购吗" _).2.2.2.2.1 (by decide) rfl

/-- C6 counterexample: a parsed reply with the single node `policy_expert`
depending on `financial_advisor` (a known specialist that is not a node of
the plan).  The parser keeps that dependency — it only drops dependencies
naming unknown *specialists*, not unknown *nodes* — so the resulting plan
contains a node whose `depends_on` names an id that is not a node of the
plan, refuting the claimed postcondition. -/
theorem c6_counterexample_dangling_dependency :
    parsePlanResponse
        (.parsed [{ role_id := some "policy_expert",
                    depends_on := some ["financial_advisor"] }] "r") =
      { nodes := [{ role_id := "policy_expert", depends_on := ["financial_advisor"] }],
        reason := "r" } ∧
    "financial_advisor" ∉
      nodeRoleIds (parsePlanResponse
        (.parsed [{ role_id := some "policy_expert",
                    depends_on := some ["financial_advisor"] }] "r")).nodes := by
  exact ⟨by decide, by decide⟩

/-- C6 (amended): parsing drops every node naming an unknown specialist and
every dependency naming an unknown specialist; afterwards every remaining
node's id and every remaining dependency name known specialists — but a
dependency may name a specialist that is not a node of the resulting plan. -/
theorem c6_parse_drops_unknown_specialists (raw : List RawNode) (reason : String) :
    ∀ n ∈ (parsePlanResponse (.parsed raw reason)).nodes,
      isValidRole n.role_id = true ∧ ∀ d ∈ n.depends_on, isValidRole d = true := by
  intro n hn
  have hcore : ∀ m ∈ parsePlanNodes raw,
      isValidRole m.role_id = true ∧ ∀ d ∈ m.depends_on, isValidRole d = true := by
    intro m hm
    unfold parsePlanNodes at hm
    rcases List.mem_filterMap.mp hm with ⟨rn, _, hrn⟩
    by_cases hv : isValidRole (rn.role_id.getD "") = true
    · rw [if_pos hv] at hrn
      cases hrn
      exact ⟨hv, fun d hd => (List.mem_filter.mp hd).2⟩
    · rw [if_neg hv] at hrn
      exact absurd hrn (by simp)
  simp only [parsePlanResponse] at hn
  by_cases he : (parsePlanNodes raw).isEmpty = true
  · rw [if_pos he] at hn
    simp only [defaultPlan, List.mem_singleton] at hn
    subst hn
    exact ⟨by decide, by simp⟩
  · rw [if_neg he] at hn
    simp only at hn
    unfold neutralizePlan at hn
    cases hv : validateDag (parsePlanNodes raw) with
    | true =>
      rw [hv] at hn
      simp only [if_true] at hn
      exact hcore n hn
    | false =>
      rw [hv] at hn
      simp only [Bool.false_eq_true, if_false] at hn
      rcases List.mem_map.mp hn with ⟨m, hm, rfl⟩
      exact ⟨(hcore m hm).1, by simp⟩

/-- Witness for C6 (amended): a reply mixing an unknown specialist node, an
unknown-specialist dependency and a dangling known-specialist dependency. -/
theorem c6_parse_drops_unknown_specialists_witness :
    (parsePlanResponse (.parsed
        [{ role_id := some "policy_expert",
           depends_on := some ["nosuch_role", "financial_advisor"] },
         { role_id := some "bogus_role", depends_on := some [] }] "r")).nodes =
      [{ role_id := "policy_expert", depends_on := ["financial_advisor"] }] ∧
    ∀ n ∈ (parsePlanResponse (.parsed
        [{ role_id := some "policy_expert",
           depends_on := some ["nosuch_role", "financial_advisor"] },
         { role_id := some "bogus_role", depends_on := some [] }] "r")).nodes,
      isValidRole n.role_id = true ∧ ∀ d ∈ n.depends_on, isValidRole d = true := by
  exact ⟨by decide, c6_parse_drops_unknown_specialists _ _⟩

/-! ## Orchestration engine (`app/agent/engine.py`) -/

/-- A role as the engine reads it (`get_role`): id, display name, icon. -/
structure RoleInfo where
  id : String
  name : String
  icon : String
  deriving DecidableEq, Repr

/-- Modelled from the spec: display name of a specialist.  The roles module is
absent from `src/`; the spec only says each specialist has a display name, and
no claim depends on its value, so it is modelled as the id itself. -/
def roleName (rid : String) : String := rid

/-- Modelled from the spec: display icon of a specialist (see `roleName`). -/
def roleIcon (rid : String) : String := rid

/-- Modelled from the spec: `get_role` succeeds exactly on the four specialist
ids (see `validRoleIds`). -/
def getRoleInfo (rid : String) : Option RoleInfo :=
  if isValidRole rid then some ⟨rid, roleName rid, roleIcon rid⟩ else none

/-- The turn event stream vocabulary (§ external interfaces): each constructor
is one event dictionary shape the engine yields. -/
inductive Ev where
  | thinkingStart
  | thinkingStep (stepType : String) (content : String) (role : Option String)
  | roleStart (role : String) (name : String) (icon : String) (isSummary : Bool)
  | toolCallEv (toolName : String) (toolArgs : String) (role : String)
  | toolResultEv (toolName : String) (content : String) (role : String)
  | contentDelta (role : String) (delta : String) (afterTool : Bool)
  | roleResult (role : String) (content : String) (isSummary : Bool)
  | done
  deriving DecidableEq, Repr

/-- Whether an event is a `content_delta`. -/
def isContentDelta (e : Ev) : Bool :=
  match e with
  | .contentDelta _ _ _ => true
  | _ => false

/-- The event types `_execute_role_stream` can yield (role field omitted — it
is always the executing role, re-attached by the caller): text increments,
interstitial thinking notices, tool events, and the final
`content_complete`. -/
inductive SEv where
  | sDelta (delta : String) (afterTool : Bool)
  | sThinking (content : String)
  | sToolCall (toolName : String) (toolArgs : String)
  | sToolResult (toolName : String) (content : String)
  | sComplete (content : String)
  deriving DecidableEq, Repr

/-- One run of `_execute_role_stream` for a node, as its caller observes it:
the events it yielded, and `failure = some msg` when iterating it raised
(after those events) with `str(e) = msg`. -/
structure StreamRun where
  events : List SEv
  failure : Option String
  deriving DecidableEq, Repr

/-- The event types `_execute_role` (the non-streaming path used for parallel
fan-out) can return: `_handle_tool_calls` builds only truncated thinking
notices, `tool_call` and `tool_result` events — never `content_delta`. -/
inductive GEv where
  | gThinking (content : String)
  | gToolCall (toolName : String) (toolArgs : String)
  | gToolResult (toolName : String) (content : String)
  deriving DecidableEq, Repr

/-- Re-attach the executing role to a non-streaming event. -/
def gevToEv (role : String) (e : GEv) : Ev :=
  match e with
  | .gThinking c => .thinkingStep "planning" c (some role)
  | .gToolCall n a => .toolCallEv n a role
  | .gToolResult n c => .toolResultEv n c role

/-- The oracle for one engine turn: what each specialist's streaming run
yields, what each specialist's non-streaming (parallel) run returns —
`.error msg` models `_execute_role` raising — and the text chunks the
synthesis stream yields. -/
structure EngineEnv where
  stream : String → StreamRun
  gather : String → Except String (String × List GEv)
  synthChunks : List String

/-- CPython dict assignment for the per-specialist result map: update in
place when the key exists, else append. -/
def setResult (m : List (String × String)) (k v : String) : List (String × String) :=
  match m with
  | [] => [(k, v)]
  | kv :: rest => if kv.1 == k then (k, v) :: rest else kv :: setResult rest k v

/-- The shared event-draining loop of `_execute_node` (`silent = false`) and
`_execute_node_silent` (`silent = true`): forward `content_delta` only when
not silent, always forward tool events, drop interstitial thinking notices,
and on `content_complete` record the full text in the result map.  Returns
(forwarded events, updated result map, last full content — initially empty,
as in the Python locals). -/
def foldStreamEvents (rid : String) (silent : Bool) :
    List SEv → List (String × String) → String →
    (List Ev × List (String × String) × String)
  | [], results, full => ([], results, full)
  | .sDelta d a :: rest, results, full =>
    let tail := foldStreamEvents rid silent rest results full
    (if silent then tail.1 else Ev.contentDelta rid d a :: tail.1, tail.2)
  | .sThinking _ :: rest, results, full => foldStreamEvents rid silent rest results full
  | .sToolCall n a :: rest, results, full =>
    let tail := foldStreamEvents rid silent rest results full
    (Ev.toolCallEv n a rid :: tail.1, tail.2)
  | .sToolResult n c :: rest, results, full =>
    let tail := foldStreamEvents rid silent rest results full
    (Ev.toolResultEv n c rid :: tail.1, tail.2)
  | .sComplete c :: rest, results, _ =>
    foldStreamEvents rid silent rest (setResult results rid c) c

/-- Embeds `_execute_node`: unknown role yields nothing; otherwise emit
`role_start` and a dispatch notice, forward the stream (live), then a
`role_result` with the full content — or, when the stream raised, with the
rendered `执行出错` text.  Returns (events, updated result map). -/
def runNodeStream (env : EngineEnv) (n : ExecutionNode)
    (results0 : List (String × String)) : List Ev × List (String × String) :=
  match getRoleInfo n.role_id with
  | none => ([], results0)
  | some role =>
    let run := env.stream n.role_id
    let f := foldStreamEvents n.role_id false run.events results0 ""
    ([Ev.roleStart role.id role.name role.icon false,
      Ev.thinkingStep "role_dispatch" (role.name ++ "正在分析...") (some role.id)] ++
     f.1 ++
     [match run.failure with
      | none => Ev.roleResult role.id f.2.2 false
      | some m => Ev.roleResult role.id ("执行出错: " ++ m) false],
     f.2.1)

/-- Embeds `_execute_node_silent`: dispatch notice, forward only tool events,
then a completion notice — or an error notice when the stream raised. -/
def runNodeSilent (env : EngineEnv) (n : ExecutionNode)
    (results0 : List (String × String)) : List Ev × List (String × String) :=
  match getRoleInfo n.role_id with
  | none => ([], results0)
  | some role =>
    let run := env.stream n.role_id
    let f := foldStreamEvents n.role_id true run.events results0 ""
    ([Ev.thinkingStep "role_dispatch" (role.name ++ "正在分析...") (some role.id)] ++
     f.1 ++
     [match run.failure with
      | none => Ev.thinkingStep "role_complete" (role.name ++ "分析完成") (some role.id)
      | some m => Ev.thinkingStep "error" (role.name ++ "分析出错: " ++ m) (some role.id)],
     f.2.1)

/-- Embeds `_execute_role_async`: an unknown role or a raised exception is
caught inside the task and rendered into the returned `RoleResult` content
(with no events), so `asyncio.gather` never sees an exception. -/
def executeRoleAsync (env : EngineEnv) (n : ExecutionNode) : String × List GEv :=
  match getRoleInfo n.role_id with
  | none => ("角色不存在", [])
  | some _ =>
    match env.gather n.role_id with
    | .ok (c, evs) => (c, evs)
    | .error m => ("执行出错: " ++ m, [])

/-- The `role_start` / dispatch notices emitted for every (known) role before
a parallel round runs. -/
def parallelHeadEvents (ready : List ExecutionNode) : List Ev :=
  ready.flatMap (fun n =>
    match getRoleInfo n.role_id with
    | none => []
    | some role =>
      [Ev.roleStart role.id role.name role.icon false,
       Ev.thinkingStep "role_dispatch" (role.name ++ "正在分析...") (some role.id)])

/-- The post-`gather` loop of the parallel branch: per ready node (in order),
record its content in the result map, forward its tool events, and emit its
`role_result`. -/
def parallelEmit (env : EngineEnv) :
    List ExecutionNode → List (String × String) → List Ev × List (String × String)
  | [], results => ([], results)
  | n :: rest, results =>
    let r := executeRoleAsync env n
    let tail := parallelEmit env rest (setResult results n.role_id r.1)
    ((r.2.map (gevToEv n.role_id)) ++ [Ev.roleResult n.role_id r.1 false] ++ tail.1,
     tail.2)

/-- One parallel scheduling round (the `len(ready_nodes) > 1` branch of
`_process_dag_mode`). -/
def runParallelRound (env : EngineEnv) (ready : List ExecutionNode)
    (results0 : List (String × String)) : List Ev × List (String × String) :=
  let e := parallelEmit env ready results0
  (parallelHeadEvents ready ++ e.1, e.2)

/-- A recorded scheduling round: its ready set, the `is_last_batch` flag the
engine computed, and the events it emitted. -/
structure RoundRec where
  ready : List ExecutionNode
  isLastBatch : Bool
  events : List Ev
  deriving DecidableEq, Repr

/-- Python `set.add` on the completed set (kept as an insertion-ordered
duplicate-free list; only size and membership are consumed). -/
def addCompleted (c : List String) (rid : String) : List String :=
  if c.contains rid then c else c ++ [rid]

/-- The scheduling loop state: completed ids, the per-specialist result map,
and the rounds recorded so far. -/
structure DagLoopState where
  completed : List String
  results : List (String × String)
  rounds : List RoundRec
  deriving DecidableEq, Repr

/-- Embeds the `while True:` scheduling loop of `_process_dag_mode`,
fuel-indexed: compute the ready set; stop when it is empty; a single ready
node runs silent (multi-expert, non-final batch) or streaming; several ready
nodes run as one parallel round.  Every iteration with a non-empty ready set
completes at least one new id, so `nodes.length + 1` fuel always reaches the
empty-ready stop, making the fuel-indexed model equal to the unbounded
Python loop. -/
def dagLoop (env : EngineEnv) (nodes : List ExecutionNode) (isMulti : Bool)
    (total : Nat) : Nat → DagLoopState → DagLoopState
  | 0, st => st
  | fuel + 1, st =>
    match getReadyNodes nodes st.completed with
    | [] => st
    | [n] =>
      let isLast := st.completed.length + 1 == total
      if isMulti && !isLast then
        let r := runNodeSilent env n st.results
        dagLoop env nodes isMulti total fuel
          { completed := addCompleted st.completed n.role_id, results := r.2,
            rounds := st.rounds ++ [⟨[n], isLast, r.1⟩] }
      else
        let r := runNodeStream env n st.results
        dagLoop env nodes isMulti total fuel
          { completed := addCompleted st.completed n.role_id, results := r.2,
            rounds := st.rounds ++ [⟨[n], isLast, r.1⟩] }
    | n1 :: n2 :: rest =>
      let ready := n1 :: n2 :: rest
      let isLast := st.completed.length + ready.length == total
      let r := runParallelRound env ready st.results
      dagLoop env nodes isMulti total fuel
        { completed := (ready.map ExecutionNode.role_id).foldl addCompleted st.completed,
          results := r.2,
          rounds := st.rounds ++ [⟨ready, isLast, r.1⟩] }

/-- Whether the implicit synthesis call triggers: more than one result and
none from the synthesizer (`len(context.role_results) > 1 and
"purchase_consultant" not in context.role_results`). -/
def synthesisNeeded (results : List (String × String)) : Bool :=
  decide (1 < results.length) && !(results.any (fun kv => kv.1 == "purchase_consultant"))

/-- The events of the synthesis tail: synthesizing notice, summary
`role_start`, one `content_delta` per non-empty chunk, and the summary
`role_result`. -/
def synthesisEvents (chunks : List String) : List Ev :=
  [Ev.thinkingStep "synthesizing" "正在整合各专家意见，生成综合建议..." none,
   Ev.roleStart "purchase_consultant" (roleName "purchase_consultant")
     (roleIcon "purchase_consultant") true] ++
  ((chunks.filter (fun c => !(c == ""))).map
    (fun c => Ev.contentDelta "purchase_consultant" c false)) ++
  [Ev.roleResult "purchase_consultant" (strConcat chunks) true]

/-- Result of the post-loop tail of `_process_dag_mode`: how many synthesis
calls were issued, the events they produced, the final result map, and the
persisted assistant message (if any). -/
structure FinalizeRec where
  synthCalls : Nat
  events : List Ev
  results : List (String × String)
  persisted : Option String
  deriving DecidableEq, Repr

/-- Embeds the tail of `_process_dag_mode`: when synthesis is needed, issue
exactly one synthesis call, store its full text under `purchase_consultant`
and emit its events; then persist the synthesizer's result when present, else
the last result value, and nothing when the map is empty. -/
def finalizeDag (results : List (String × String)) (chunks : List String) :
    FinalizeRec :=
  let needed := synthesisNeeded results
  let results2 :=
    if needed then setResult results "purchase_consultant" (strConcat chunks) else results
  { synthCalls := if needed then 1 else 0
    events := if needed then synthesisEvents chunks else []
    results := results2
    persisted :=
      match results2.lookup "purchase_consultant" with
      | some v => some v
      | none => (results2.getLast?).map Prod.snd }

/-- A full DAG-mode turn: recorded rounds, synthesis tail, final result map
and persisted answer. -/
structure DagRun where
  rounds : List RoundRec
  synthCalls : Nat
  synthEvents : List Ev
  results : List (String × String)
  persisted : Option String
  deriving DecidableEq, Repr

/-- Embeds `_process_dag_mode`: clear the result map, run the scheduling
loop, then the synthesis/persistence tail. -/
def processDagMode (env : EngineEnv) (plan : ExecutionPlan) : DagRun :=
  let total := plan.nodes.length
  let st := dagLoop env plan.nodes (decide (1 < total)) total (total + 1)
    { completed := [], results := [], rounds := [] }
  let fin := finalizeDag st.results env.synthChunks
  { rounds := st.rounds, synthCalls := fin.synthCalls, synthEvents := fin.events,
    results := fin.results, persisted := fin.persisted }

theorem setResult_lookup_self (m : List (String × String)) (k v : String) :
    (setResult m k v).lookup k = some v := by
  induction m with
  | nil => simp [setResult, List.lookup]
  | cons kv rest ih =>
    cases h : (kv.1 == k) with
    | true =>
      have hk : kv.1 = k := by simpa using h
      simp [setResult, h, List.lookup]
    | false =>
      have hne : ¬ kv.1 = k := by simpa using h
      have hk : (k == kv.1) = false := by simpa using (Ne.symm hne)
      simp [setResult, h, List.lookup, hk, ih]

theorem lookup_mem_pair (m : List (String × String)) (k v : String)
    (h : m.lookup k = some v) : (k, v) ∈ m := by
  induction m with
  | nil => exact absurd h (by simp)
  | cons kv rest ih =>
    cases hk : (k == kv.1) with
    | true =>
      have he : k = kv.1 := by simpa using hk
      rw [List.lookup, hk] at h
      cases h
      subst he
      simp
    | false =>
      rw [List.lookup, hk] at h
      exact List.mem_cons_of_mem _ (ih h)

theorem setResult_lookup_ne (m : List (String × String)) (k v j : String)
    (hjk : ¬ j = k) :
    (setResult m k v).lookup j = m.lookup j := by
  have hb : (j == k) = false := by simpa using hjk
  induction m with
  | nil => simp [setResult, List.lookup, hb]
  | cons kv rest ih =>
    cases h : (kv.1 == k) with
    | true =>
      have hk : kv.1 = k := by simpa using h
      have hj : (j == kv.1) = false := by simp [hk, hjk]
      have hj2 : (j == k) = false := by simp [hjk]
      simp [setResult, h, List.lookup, hj, hj2]
    | false =>
      cases hj : (j == kv.1) with
      | true => simp [setResult, h, List.lookup, hj]
      | false => simp [setResult, h, List.lookup, hj, ih]

/-- C2: after the DAG drains, if the result map holds more than one entry and
none belongs to `purchase_consultant`, exactly one synthesis call is issued
and its full text becomes the persisted answer; otherwise no synthesis call
is issued and the persisted answer is the synthesizer's entry when present,
else the last entry's value (and nothing when the map is empty). -/
theorem c2_synthesis_trigger (results : List (String × String)) (chunks : List String) :
    (1 < results.length → "purchase_consultant" ∉ results.map Prod.fst →
      (finalizeDag results chunks).synthCalls = 1 ∧
      (finalizeDag results chunks).persisted = some (strConcat chunks)) ∧
    (∀ v, results.lookup "purchase_consultant" = some v →
      (finalizeDag results chunks).synthCalls = 0 ∧
      (finalizeDag results chunks).persisted = some v) ∧
    (results.length ≤ 1 → results.lookup "purchase_consultant" = none →
      (finalizeDag results chunks).synthCalls = 0 ∧
      (finalizeDag results chunks).persisted = (results.getLast?).map Prod.snd) := by
  refine ⟨?_, ?_, ?_⟩
  · intro hlen hpc
    have hany : (results.any (fun kv => kv.1 == "purchase_consultant")) = false := by
      rw [List.any_eq_false]
      intro kv hkv he
      exact hpc (List.mem_map.mpr ⟨kv, hkv, by simpa using he⟩)
    have hneed : synthesisNeeded results = true := by
      simp [synthesisNeeded, hany, hlen]
    constructor
    · simp [finalizeDag, hneed]
    · simp only [finalizeDag, hneed, if_true]
      rw [setResult_lookup_self]
  · intro v hv
    have hany : (results.any (fun kv => kv.1 == "purchase_consultant")) = true := by
      rw [List.any_eq_true]
      exact ⟨_, lookup_mem_pair results _ v hv, by simp⟩
    have hneed : synthesisNeeded results = false := by
      simp [synthesisNeeded, hany]
    constructor
    · simp [finalizeDag, hneed]
    · simp [finalizeDag, hneed, hv]
  · intro hlen hpc
    have hneed : synthesisNeeded results = false := by
      simp only [synthesisNeeded, Bool.and_eq_false_iff]
      left
      simpa using Nat.not_lt.mpr hlen
    constructor
    · simp [finalizeDag, hneed]
    · simp [finalizeDag, hneed, hpc]

/-- Witness for C2: two specialist results without the synthesizer trigger
one synthesis call whose text is persisted; a map containing the synthesizer
persists the synthesizer's entry without a synthesis call. -/
theorem c2_synthesis_trigger_witness :
    (finalizeDag [("policy_expert", "P"), ("market_analyst", "M")] ["S1", "S2"]).synthCalls
        = 1 ∧
    (finalizeDag [("policy_expert", "P"), ("market_analyst", "M")] ["S1", "S2"]).persisted
        = some (strConcat ["S1", "S2"]) ∧
    (finalizeDag [("purchase_consultant", "C")] ["S1"]).synthCalls = 0 ∧
    (finalizeDag [("purchase_consultant", "C")] ["S1"]).persisted = some "C" := by
  have h1 := (c2_synthesis_trigger [("policy_expert", "P"), ("market_analyst", "M")]
    ["S1", "S2"]).1 (by decide) (by decide)
  have h2 := (c2_synthesis_trigger [("purchase_consultant", "C")] ["S1"]).2.1 "C" (by decide)
  exact ⟨h1.1, h1.2, h2.1, h2.2⟩

/-! ## Tool-calling loop error absorption
(`AgentEngine._handle_tool_calls_stream` / `_handle_tool_calls`) -/

/-- One tool call as requested by the model: correlation id, function name,
raw JSON argument string (`tool_call["function"]["arguments"]`). -/
structure PendingToolCall where
  id : String
  name : String
  argumentsStr : String
  deriving DecidableEq, Repr

/-- Outcome of `json.loads` on an argument string: a keyword-argument dict,
or `json.JSONDecodeError`.  (A JSON value that is not an object would raise
at the `execute(**args)` call boundary instead and be absorbed by the same
`except`; it is not modelled separately.) -/
inductive ArgsParse where
  | parsedArgs (args : List (String × PyVal))
  | malformed

/-- A registered tool: its declared parameters and its implementation.  The
implementation oracle returns the `json.dumps`-able result or the `str(e)` of
whatever `execute` raised after validation. -/
structure ToolModel where
  params : List ToolParameter
  impl : List (String × PyVal) → Except String String

/-- The `str(e)` rendering of a `ValueError` raised by `validate_params`
(messages abstracted to category plus parameter name, matching
`ValidationError`). -/
def renderValidationError (e : ValidationError) : String :=
  match e with
  | .missingRequired p => "缺少必需参数: " ++ p
  | .typeMismatch p => "参数 " ++ p ++ " 类型错误"
  | .enumViolation p => "参数 " ++ p ++ " 值无效"

/-- A tool's `execute`: every registered tool first runs `validate_params`
(raising on bad arguments) and then its body; both kinds of exception reach
the engine's call boundary. -/
def toolExecute (t : ToolModel) (args : List (String × PyVal)) : Except String String :=
  match validateParams t.params args with
  | .error e => .error (renderValidationError e)
  | .ok () => t.impl args

/-- The oracle for the tool-call loop: registry lookup
(`tool_registry.get`) and the JSON parse of each argument string. -/
structure ToolCallEnv where
  registry : String → Option ToolModel
  parseArgs : String → ArgsParse

/-- Content of a `role: tool` message fed back to the model: the
`json.dumps(result)` payload, or the structured `json.dumps({"error": msg})`
payload (braces elided in this rendering). -/
inductive ToolMsgContent where
  | payload (s : String)
  | errorObj (msg : String)
  deriving DecidableEq, Repr

/-- A tool-result message appended to the conversation. -/
structure ToolMessage where
  tool_call_id : String
  content : ToolMsgContent
  deriving DecidableEq, Repr

/-- The argument dict actually passed to `execute`: the parsed object, or the
empty dict when `json.loads` raised (`except json.JSONDecodeError: tool_args
= {}`). -/
def executedArgs (env : ToolCallEnv) (tc : PendingToolCall) : List (String × PyVal) :=
  match env.parseArgs tc.argumentsStr with
  | .parsedArgs a => a
  | .malformed => []

/-- The loop body for one requested tool call: emit the `tool_call` event;
an unregistered name becomes an error payload; a raising execution becomes an
error payload; a success becomes the result payload plus a `tool_result`
event.  Nothing propagates an exception. -/
def processToolCall (env : ToolCallEnv) (tc : PendingToolCall) :
    ToolMessage × List GEv :=
  match env.registry tc.name with
  | none =>
    (⟨tc.id, .errorObj ("工具 " ++ tc.name ++ " 不存在")⟩,
     [.gToolCall tc.name tc.argumentsStr])
  | some t =>
    match toolExecute t (executedArgs env tc) with
    | .ok p =>
      (⟨tc.id, .payload p⟩,
       [.gToolCall tc.name tc.argumentsStr,
        .gToolResult tc.name ("工具 " ++ tc.name ++ " 执行完成")])
    | .error m =>
      (⟨tc.id, .errorObj m⟩, [.gToolCall tc.name tc.argumentsStr])

/-- The `for tool_call in tool_calls:` loop: one tool message appended per
requested call, in order, with the accumulated events. -/
def handleToolCalls (env : ToolCallEnv) (tcs : List PendingToolCall) :
    List ToolMessage × List GEv :=
  match tcs with
  | [] => ([], [])
  | tc :: rest =>
    let r := processToolCall env tc
    let tail := handleToolCalls env rest
    (r.1 :: tail.1, r.2 ++ tail.2)

/-- C8: the tool-call loop is total and absorbing: it appends exactly one
tool message per requested call; malformed JSON arguments are executed as the
empty argument dict; an unregistered tool and a raising execution (parameter
validation included) each become a structured error payload fed back to the
model, never a failure of the turn. -/
theorem c8_tool_call_error_absorption (env : ToolCallEnv) (tcs : List PendingToolCall) :
    (handleToolCalls env tcs).1 = tcs.map (fun tc => (processToolCall env tc).1) ∧
    (∀ tc ∈ tcs,
      (env.parseArgs tc.argumentsStr = .malformed → executedArgs env tc = []) ∧
      (env.registry tc.name = none →
        (processToolCall env tc).1 =
          ⟨tc.id, .errorObj ("工具 " ++ tc.name ++ " 不存在")⟩) ∧
      (∀ t m, env.registry tc.name = some t →
        toolExecute t (executedArgs env tc) = .error m →
        (processToolCall env tc).1 = ⟨tc.id, .errorObj m⟩) ∧
      (∀ t e, env.registry tc.name = some t →
        validateParams t.params (executedArgs env tc) = .error e →
        (processToolCall env tc).1 =
          ⟨tc.id, .errorObj (renderValidationError e)⟩) ∧
      (∀ t p, env.registry tc.name = some t →
        toolExecute t (executedArgs env tc) = .ok p →
        (processToolCall env tc).1 = ⟨tc.id, .payload p⟩)) := by
  constructor
  · induction tcs with
    | nil => rfl
    | cons tc rest ih =>
      simp only [handleToolCalls, List.map_cons]
      rw [ih]
  · intro tc _
    refine ⟨?_, ?_, ?_, ?_, ?_⟩
    · intro h
      simp [executedArgs, h]
    · intro h
      simp [processToolCall, h]
    · intro t m ht hexec
      simp [processToolCall, ht, hexec]
    · intro t e ht hval
      have hexec : toolExecute t (executedArgs env tc) =
          .error (renderValidationError e) := by
        simp [toolExecute, hval]
      simp [processToolCall, ht, hexec]
    · intro t p ht hexec
      simp [processToolCall, ht, hexec]

/-- Witness for C8: a malformed argument string against a tool with one
required parameter yields the validation-error payload; an unregistered tool
yields the not-found payload. -/
theorem c8_tool_call_error_absorption_witness :
    (handleToolCalls
        ⟨fun nm => if nm == "loan_calculator"
            then some ⟨[⟨"city", "string", "", true, none⟩], fun _ => .ok "ok"⟩ else none,
         fun _ => .malformed⟩
        [⟨"call-1", "loan_calculator", "not json"⟩, ⟨"call-2", "nosuch_tool", "\x7b\x7d"⟩]).1 =
      [⟨"call-1", .errorObj (renderValidationError (.missingRequired "city"))⟩,
       ⟨"call-2", .errorObj ("工具 " ++ "nosuch_tool" ++ " 不存在")⟩] := by
  have h := c8_tool_call_error_absorption
    ⟨fun nm => if nm == "loan_calculator"
        then some ⟨[⟨"city", "string", "", true, none⟩], fun _ => .ok "ok"⟩ else none,
     fun _ => .malformed⟩
    [⟨"call-1", "loan_calculator", "not json"⟩, ⟨"call-2", "nosuch_tool", "\x7b\x7d"⟩]
  rw [h.1]
  have h1 := (h.2 ⟨"call-1", "loan_calculator", "not json"⟩ (by simp)).2.2.2.1
    ⟨[⟨"city", "string", "", true, none⟩], fun _ => .ok "ok"⟩ (.missingRequired "city")
    rfl rfl
  have h2 := (h.2 ⟨"call-2", "nosuch_tool", "\x7b\x7d"⟩ (by simp)).2.1 rfl
  rw [List.map_cons, List.map_cons, List.map_nil, h1, h2]

theorem foldStreamEvents_silent_no_delta (rid : String) (evs : List SEv) :
    ∀ (results : List (String × String)) (full : String),
      ∀ e ∈ (foldStreamEvents rid true evs results full).1, isContentDelta e = false := by
  induction evs with
  | nil => intro results full e he; exact absurd he (by simp [foldStreamEvents])
  | cons ev rest ih =>
    intro results full e he
    cases ev with
    | sDelta d a =>
      simp only [foldStreamEvents, if_true] at he
      exact ih results full e he
    | sThinking c =>
      simp only [foldStreamEvents] at he
      exact ih results full e he
    | sToolCall n a =>
      simp only [foldStreamEvents, List.mem_cons] at he
      rcases he with rfl | he
      · rfl
      · exact ih results full e he
    | sToolResult n c =>
      simp only [foldStreamEvents, List.mem_cons] at he
      rcases he with rfl | he
      · rfl
      · exact ih results full e he
    | sComplete c =>
      simp only [foldStreamEvents] at he
      exact ih (setResult results rid c) c e he

theorem foldStreamEvents_live_delta (rid : String) (evs : List SEv) (d : String)
    (a : Bool) :
    ∀ (results : List (String × String)) (full : String),
      SEv.sDelta d a ∈ evs →
      Ev.contentDelta rid d a ∈ (foldStreamEvents rid false evs results full).1 := by
  induction evs with
  | nil => intro results full h; exact absurd h (by simp)
  | cons ev rest ih =>
    intro results full h
    rcases List.mem_cons.mp h with rfl | h2
    · simp [foldStreamEvents]
    · cases ev with
      | sDelta d2 a2 =>
        simp only [foldStreamEvents, Bool.false_eq_true, if_false]
        exact List.mem_cons_of_mem _ (ih results full h2)
      | sThinking c => exact ih results full h2
      | sToolCall n ar =>
        exact List.mem_cons_of_mem _ (ih results full h2)
      | sToolResult n c =>
        exact List.mem_cons_of_mem _ (ih results full h2)
      | sComplete c => exact ih (setResult results rid c) c h2

theorem runNodeSilent_no_delta (env : EngineEnv) (n : ExecutionNode)
    (results0 : List (String × String)) :
    ∀ e ∈ (runNodeSilent env n results0).1, isContentDelta e = false := by
  intro e he
  unfold runNodeSilent at he
  cases h : getRoleInfo n.role_id with
  | none => rw [h] at he; exact absurd he (by simp)
  | some role =>
    rw [h] at he
    simp only [List.mem_append, List.mem_cons, List.not_mem_nil, or_false,
      List.mem_singleton] at he
    rcases he with (rfl | he) | he
    · rfl
    · exact foldStreamEvents_silent_no_delta n.role_id _ results0 "" e he
    · cases hf : (env.stream n.role_id).failure with
      | none => rw [hf] at he; subst he; rfl
      | some m => rw [hf] at he; subst he; rfl

theorem parallelEmit_no_delta (env : EngineEnv) (l : List ExecutionNode) :
    ∀ (m : List (String × String)), ∀ e ∈ (parallelEmit env l m).1,
      isContentDelta e = false := by
  induction l with
  | nil => intro m e he; exact absurd he (by simp [parallelEmit])
  | cons n rest ih =>
    intro m e he
    simp only [parallelEmit, List.mem_append, List.mem_singleton] at he
    rcases he with (he | rfl) | he
    · rcases List.mem_map.mp he with ⟨g, _, rfl⟩
      cases g <;> rfl
    · rfl
    · exact ih _ e he

theorem runParallelRound_no_delta (env : EngineEnv) (ready : List ExecutionNode)
    (results0 : List (String × String)) :
    ∀ e ∈ (runParallelRound env ready results0).1, isContentDelta e = false := by
  intro e he
  unfold runParallelRound at he
  simp only [List.mem_append] at he
  rcases he with he | he
  · unfold parallelHeadEvents at he
    rcases List.mem_flatMap.mp he with ⟨n, _, hn⟩
    cases h : getRoleInfo n.role_id with
    | none => rw [h] at hn; exact absurd hn (by simp)
    | some role =>
      rw [h] at hn
      rcases List.mem_cons.mp hn with rfl | hn
      · rfl
      · rcases List.mem_singleton.mp hn with rfl
        rfl
  · exact parallelEmit_no_delta env ready results0 e he

/-- The relay discipline one recorded round satisfies: if any of its events is
a `content_delta`, the round was a single node run in streaming mode, which
requires single-expert mode or the final batch. -/
def roundRelayOk (isMulti : Bool) (r : RoundRec) : Prop :=
  (∃ e ∈ r.events, isContentDelta e = true) →
    r.ready.length = 1 ∧ (isMulti = false ∨ r.isLastBatch = true)

theorem dagLoop_relay (env : EngineEnv) (nodes : List ExecutionNode) (isMulti : Bool)
    (total : Nat) (fuel : Nat) :
    ∀ st : DagLoopState, (∀ r ∈ st.rounds, roundRelayOk isMulti r) →
      ∀ r ∈ (dagLoop env nodes isMulti total fuel st).rounds, roundRelayOk isMulti r := by
  induction fuel with
  | zero => intro st hst; exact hst
  | succ fuel ih =>
    intro st hst
    unfold dagLoop
    cases hready : getReadyNodes nodes st.completed with
    | nil => exact hst
    | cons n1 tail =>
      cases tail with
      | nil =>
        cases hcond : (isMulti && !(st.completed.length + 1 == total)) with
        | true =>
          simp only [hcond, if_true]
          apply ih
          intro r hr
          rcases List.mem_append.mp hr with hr | hr
          · exact hst r hr
          · rcases List.mem_singleton.mp hr with rfl
            intro hex
            rcases hex with ⟨e, he, hdelta⟩
            rw [runNodeSilent_no_delta env n1 st.results e he] at hdelta
            exact absurd hdelta (by simp)
        | false =>
          simp only [hcond, Bool.false_eq_true, if_false]
          apply ih
          intro r hr
          rcases List.mem_append.mp hr with hr | hr
          · exact hst r hr
          · rcases List.mem_singleton.mp hr with rfl
            intro _
            refine ⟨rfl, ?_⟩
            rcases Bool.and_eq_false_iff.mp hcond with h | h
            · exact Or.inl h
            · right
              simpa using h
      | cons n2 rest =>
        apply ih
        intro r hr
        rcases List.mem_append.mp hr with hr | hr
        · exact hst r hr
        · rcases List.mem_singleton.mp hr with rfl
          intro hex
          rcases hex with ⟨e, he, hdelta⟩
          rw [runParallelRound_no_delta env (n1 :: n2 :: rest) st.results e he] at hdelta
          exact absurd hdelta (by simp)

theorem dagLoop_step_empty (env : EngineEnv) (nodes : List ExecutionNode)
    (isMulti : Bool) (total fuel : Nat) (st : DagLoopState)
    (h : getReadyNodes nodes st.completed = []) :
    dagLoop env nodes isMulti total (fuel + 1) st = st := by
  unfold dagLoop
  rw [h]

theorem dagLoop_step_single_stream (env : EngineEnv) (nodes : List ExecutionNode)
    (isMulti : Bool) (total fuel : Nat) (st : DagLoopState) (n : ExecutionNode)
    (h : getReadyNodes nodes st.completed = [n])
    (hc : (isMulti && !(st.completed.length + 1 == total)) = false) :
    dagLoop env nodes isMulti total (fuel + 1) st =
      dagLoop env nodes isMulti total fuel
        { completed := addCompleted st.completed n.role_id,
          results := (runNodeStream env n st.results).2,
          rounds := st.rounds ++
            [⟨[n], st.completed.length + 1 == total, (runNodeStream env n st.results).1⟩] } := by
  have hprop : ¬(isMulti = true ∧ ¬ (st.completed.length + 1 = total)) := by
    rintro ⟨h1, h2⟩
    rw [h1] at hc
    simp only [Bool.true_and] at hc
    exact h2 (by simpa using hc)
  conv_lhs => unfold dagLoop
  rw [h]
  simp [hprop]

theorem dagLoop_single (env : EngineEnv) (n : ExecutionNode)
    (hdeps : n.depends_on = []) :
    dagLoop env [n] false 1 2 ⟨[], [], []⟩ =
      ⟨[n.role_id], (runNodeStream env n []).2,
       [⟨[n], true, (runNodeStream env n []).1⟩]⟩ := by
  have hr1 : getReadyNodes [n] [] = [n] := by simp [getReadyNodes, hdeps]
  have hr2 : getReadyNodes [n] (addCompleted [] n.role_id) = [] := by
    simp [getReadyNodes, addCompleted]
  rw [dagLoop_step_single_stream env [n] false 1 1 ⟨[], [], []⟩ n hr1 rfl]
  rw [dagLoop_step_empty env [n] false 1 0 _ hr2]
  simp [addCompleted]

/-- C3 (amended): a round's events may contain `content_delta` only when the
round ran a single node in streaming mode — which requires single-expert mode
or the final batch; silent rounds and parallel rounds (including a parallel
final round) emit none, a parallel round instead carrying each node's full
text inside its `role_result` event; and a single-node dependency-free plan
always streams live: every text fragment of its stream reaches the event
stream as a `content_delta`. -/
theorem c3_relay_rule_amended (env : EngineEnv) (plan : ExecutionPlan) :
    (∀ r ∈ (processDagMode env plan).rounds,
      roundRelayOk (decide (1 < plan.nodes.length)) r) ∧
    (∀ n, plan.nodes = [n] → n.depends_on = [] →
      (processDagMode env plan).rounds = [⟨[n], true, (runNodeStream env n []).1⟩] ∧
      (isValidRole n.role_id = true →
        ∀ d a, SEv.sDelta d a ∈ (env.stream n.role_id).events →
          Ev.contentDelta n.role_id d a ∈ (runNodeStream env n []).1)) := by
  constructor
  · intro r hr
    unfold processDagMode at hr
    exact dagLoop_relay env plan.nodes _ _ _ _ (by simp) r hr
  · intro n hplan hdeps
    constructor
    · show (processDagMode env plan).rounds = _
      unfold processDagMode
      rw [hplan]
      simp only [List.length_singleton]
      have hdec : (decide (1 < 1)) = false := by norm_num
      rw [hdec, dagLoop_single env n hdeps]
    · intro hvalid d a hmem
      unfold runNodeStream
      cases hrole : getRoleInfo n.role_id with
      | none =>
        rw [getRoleInfo, if_pos hvalid] at hrole
        exact absurd hrole (by simp)
      | some role =>
        exact List.mem_append.mpr (Or.inl (List.mem_append.mpr
          (Or.inr (foldStreamEvents_live_delta n.role_id _ d a [] "" hmem))))

/-- A turn oracle for the C3 counterexample: streaming runs yield nothing
(the parallel path is taken), parallel runs return a non-empty analysis text
with no tool events, and synthesis streams two chunks. -/
def c3Env : EngineEnv :=
  { stream := fun _ => ⟨[], none⟩
    gather := fun rid => .ok (rid ++ "-analysis", [])
    synthChunks := ["S1", "S2"] }

/-- A two-node fully parallel plan. -/
def c3Plan : ExecutionPlan :=
  ⟨[⟨"policy_expert", []⟩, ⟨"market_analyst", []⟩], "two independent concerns"⟩

/-- C3 counterexample: on a two-node plan whose only (hence final) scheduling
round is parallel, the final round emits no `content_delta` at all although
both nodes produced non-empty text — the text reaches the stream inside the
`role_result` events, not as live deltas, and no completion-notice
`thinking_step` replaces it.  This refutes both "the final round streams its
text live" and "their text is withheld and replaced by a completion notice"
as stated. -/
theorem c3_counterexample_parallel_final_round :
    (processDagMode c3Env c3Plan).rounds.map RoundRec.isLastBatch = [true] ∧
    (processDagMode c3Env c3Plan).rounds.map
        (fun r => r.events.filter isContentDelta) = [[]] ∧
    (processDagMode c3Env c3Plan).rounds.map
        (fun r => r.events.contains
          (Ev.roleResult "policy_expert" ("policy_expert" ++ "-analysis") false)) = [true] ∧
    (processDagMode c3Env c3Plan).rounds.map
        (fun r => r.events.contains
          (Ev.thinkingStep "role_complete" ("policy_expert" ++ "分析完成")
            (some "policy_expert"))) = [false] ∧
    (processDagMode c3Env c3Plan).results.lookup "policy_expert" =
      some ("policy_expert" ++ "-analysis") := by
  exact ⟨by decide, by decide, by decide, by decide, by decide⟩

/-- Witness for C3 (amended): a single-node plan with one stream fragment;
the round is recorded as streaming and the fragment appears as a
`content_delta`. -/
theorem c3_relay_rule_amended_witness :
    (processDagMode
        ⟨fun _ => ⟨[.sDelta "您好" false, .sComplete "您好"], none⟩,
         fun rid => .ok (rid, []), []⟩
        ⟨[⟨"purchase_consultant", []⟩], "single"⟩).rounds =
      [⟨[⟨"purchase_consultant", []⟩], true,
        (runNodeStream
          ⟨fun _ => ⟨[.sDelta "您好" false, .sComplete "您好"], none⟩,
           fun rid => .ok (rid, []), []⟩ ⟨"purchase_consultant", []⟩ []).1⟩] ∧
    Ev.contentDelta "purchase_consultant" "您好" false ∈
      (runNodeStream
        ⟨fun _ => ⟨[.sDelta "您好" false, .sComplete "您好"], none⟩,
         fun rid => .ok (rid, []), []⟩ ⟨"purchase_consultant", []⟩ []).1 := by
  have h := (c3_relay_rule_amended
    ⟨fun _ => ⟨[.sDelta "您好" false, .sComplete "您好"], none⟩,
     fun rid => .ok (rid, []), []⟩
    ⟨[⟨"purchase_consultant", []⟩], "single"⟩).2
    ⟨"purchase_consultant", []⟩ rfl rfl
  exact ⟨h.1, h.2 (by decide) "您好" false (by decide)⟩

theorem parallelEmit_lookup_not_mem (env : EngineEnv) (l : List ExecutionNode) :
    ∀ (m : List (String × String)) (k : String),
      k ∉ l.map ExecutionNode.role_id →
      (parallelEmit env l m).2.lookup k = m.lookup k := by
  induction l with
  | nil => intro m k _; rfl
  | cons n rest ih =>
    intro m k hk
    simp only [List.map_cons, List.mem_cons, not_or] at hk
    simp only [parallelEmit]
    rw [ih _ k hk.2, setResult_lookup_ne _ _ _ _ hk.1]

theorem parallelEmit_lookup_mem (env : EngineEnv) (l : List ExecutionNode)
    (hnodup : (l.map ExecutionNode.role_id).Nodup) :
    ∀ (m : List (String × String)), ∀ n ∈ l,
      (parallelEmit env l m).2.lookup n.role_id = some (executeRoleAsync env n).1 := by
  induction l with
  | nil => intro m n hn; exact absurd hn (by simp)
  | cons n0 rest ih =>
    intro m n hn
    simp only [List.map_cons, List.nodup_cons] at hnodup
    rcases List.mem_cons.mp hn with rfl | hn2
    · simp only [parallelEmit]
      rw [parallelEmit_lookup_not_mem env rest _ n.role_id hnodup.1,
        setResult_lookup_self]
    · simp only [parallelEmit]
      exact ih hnodup.2 _ n hn2

theorem parallelEmit_roleResult_mem (env : EngineEnv) (l : List ExecutionNode) :
    ∀ (m : List (String × String)), ∀ n ∈ l,
      Ev.roleResult n.role_id (executeRoleAsync env n).1 false ∈ (parallelEmit env l m).1 := by
  induction l with
  | nil => intro m n hn; exact absurd hn (by simp)
  | cons n0 rest ih =>
    intro m n hn
    rcases List.mem_cons.mp hn with rfl | hn2
    · simp only [parallelEmit]
      exact List.mem_append.mpr (Or.inl (List.mem_append.mpr (Or.inr (by simp))))
    · simp only [parallelEmit]
      exact List.mem_append.mpr (Or.inr (ih _ n hn2))

/-- C9 (amended): in a parallel scheduling round, every node's outcome is
captured independently of its siblings: each ready node's entry in the result
map is exactly its own rendered content — for a node whose execution raised,
the rendered `执行出错` failure string — and its `role_result` event is
emitted; sibling failures change nothing for the other nodes.  (A *serial*
failing node, by contrast, emits the failure text but writes no result-map
entry; see the counterexample.) -/
theorem c9_parallel_failure_isolation (env : EngineEnv) (ready : List ExecutionNode)
    (results0 : List (String × String))
    (hnodup : (ready.map ExecutionNode.role_id).Nodup) :
    ∀ n ∈ ready,
      (runParallelRound env ready results0).2.lookup n.role_id =
        some (executeRoleAsync env n).1 ∧
      Ev.roleResult n.role_id (executeRoleAsync env n).1 false ∈
        (runParallelRound env ready results0).1 ∧
      (isValidRole n.role_id = true → ∀ m, env.gather n.role_id = .error m →
        (executeRoleAsync env n).1 = "执行出错: " ++ m) := by
  intro n hn
  refine ⟨?_, ?_, ?_⟩
  · exact parallelEmit_lookup_mem env ready hnodup results0 n hn
  · exact List.mem_append.mpr (Or.inr (parallelEmit_roleResult_mem env ready results0 n hn))
  · intro hvalid m hm
    unfold executeRoleAsync
    rw [getRoleInfo, if_pos hvalid, hm]

/-- A turn oracle for the C9 counterexample: the `policy_expert` stream raises
`boom`; the `financial_advisor` stream completes with text. -/
def c9Env : EngineEnv :=
  { stream := fun rid =>
      if rid == "policy_expert" then ⟨[], some "boom"⟩
      else ⟨[.sComplete "fa-text"], none⟩
    gather := fun _ => .ok ("", [])
    synthChunks := [] }

/-- A two-node chain: `financial_advisor` depends on `policy_expert`. -/
def c9Plan : ExecutionPlan :=
  ⟨[⟨"policy_expert", []⟩, ⟨"financial_advisor", ["policy_expert"]⟩], "chain"⟩

/-- C9 counterexample: the failing node runs alone in the first (serial,
silent) round of a two-round chain; its exception is caught, but no
`执行出错` entry is written to the result map — the map ends with only the
dependent's entry, so the claimed postcondition (a failed node's entry
becomes an execution-failed string in every round) is false for serial
rounds. -/
theorem c9_counterexample_serial_failure_no_entry :
    (processDagMode c9Env c9Plan).rounds.length = 2 ∧
    (processDagMode c9Env c9Plan).rounds.map
        (fun r => r.events.contains
          (Ev.thinkingStep "error" ("policy_expert" ++ "分析出错: " ++ "boom")
            (some "policy_expert"))) = [true, false] ∧
    (processDagMode c9Env c9Plan).results.lookup "policy_expert" = none ∧
    (processDagMode c9Env c9Plan).results = [("financial_advisor", "fa-text")] := by
  exact ⟨by decide, by decide, by decide, by decide⟩

/-- Witness for C9 (amended): a parallel round of two independent nodes where
`policy_expert` raises and `market_analyst` succeeds — the failed node's
entry is the rendered failure string and the sibling's entry is its own
text. -/
theorem c9_parallel_failure_isolation_witness :
    (runParallelRound
        ⟨fun _ => ⟨[], none⟩,
         fun rid => if rid == "policy_expert" then .error "boom" else .ok ("ma-text", []),
         []⟩
        [⟨"policy_expert", []⟩, ⟨"market_analyst", []⟩] []).2.lookup "policy_expert" =
      some ("执行出错: " ++ "boom") ∧
    (runParallelRound
        ⟨fun _ => ⟨[], none⟩,
         fun rid => if rid == "policy_expert" then .error "boom" else .ok ("ma-text", []),
         []⟩
        [⟨"policy_expert", []⟩, ⟨"market_analyst", []⟩] []).2.lookup "market_analyst" =
      some "ma-text" := by
  have h1 := c9_parallel_failure_isolation
    ⟨fun _ => ⟨[], none⟩,
     fun rid => if rid == "policy_expert" then .error "boom" else .ok ("ma-text", []),
     []⟩
    [⟨"policy_expert", []⟩, ⟨"market_analyst", []⟩] [] (by decide)
    ⟨"policy_expert", []⟩ (by decide)
  have h2 := c9_parallel_failure_isolation
    ⟨fun _ => ⟨[], none⟩,
     fun rid => if rid == "policy_expert" then .error "boom" else .ok ("ma-text", []),
     []⟩
    [⟨"policy_expert", []⟩, ⟨"market_analyst", []⟩] [] (by decide)
    ⟨"market_analyst", []⟩ (by decide)
  constructor
  · rw [h1.1]
    rw [h1.2.2 (by decide) "boom" rfl]
  · rw [h2.1]
    rfl


/-! ## Cycle detection soundness (`IntentRecognizer._validate_dag`) -/

theorem dedupFirstAux_cons_eq (seen : List String) (a : String) (l : List String) :
    dedupFirstAux seen (a :: l) =
      if seen.contains a then dedupFirstAux seen l
      else a :: dedupFirstAux (seen ++ [a]) l := rfl

theorem dedupFirstAux_cons_mem (seen : List String) (a : String) (l : List String)
    (h : seen.contains a = true) :
    dedupFirstAux seen (a :: l) = dedupFirstAux seen l := by
  rw [dedupFirstAux_cons_eq, if_pos h]

theorem dedupFirstAux_cons_new (seen : List String) (a : String) (l : List String)
    (h : seen.contains a = false) :
    dedupFirstAux seen (a :: l) = a :: dedupFirstAux (seen ++ [a]) l := by
  rw [dedupFirstAux_cons_eq, if_neg (by rw [h]; simp)]

theorem dedupFirstAux_mem (xs : List String) :
    ∀ (seen : List String) (v : String),
      v ∈ dedupFirstAux seen xs ↔ v ∈ xs ∧ v ∉ seen := by
  induction xs with
  | nil => intro seen v; simp [dedupFirstAux]
  | cons a l ih =>
    intro seen v
    by_cases h : a ∈ seen
    · rw [dedupFirstAux_cons_mem seen a l (by simpa using h)]
      rw [ih]
      constructor
      · rintro ⟨h1, h2⟩
        exact ⟨List.mem_cons_of_mem a h1, h2⟩
      · rintro ⟨h1, h2⟩
        rcases List.mem_cons.mp h1 with rfl | h3
        · exact absurd h h2
        · exact ⟨h3, h2⟩
    · rw [dedupFirstAux_cons_new seen a l (by simpa using h)]
      constructor
      · intro hm
        rcases List.mem_cons.mp hm with rfl | hm2
        · exact ⟨List.mem_cons_self _ _, h⟩
        · rcases (ih (seen ++ [a]) v).mp hm2 with ⟨h1, h2⟩
          exact ⟨List.mem_cons_of_mem a h1, fun hc => h2 (List.mem_append_left _ hc)⟩
      · rintro ⟨h1, h2⟩
        by_cases hva : v = a
        · exact hva ▸ List.mem_cons_self v _
        · rcases List.mem_cons.mp h1 with rfl | h3
          · exact absurd rfl hva
          · refine List.mem_cons_of_mem a ((ih (seen ++ [a]) v).mpr ⟨h3, ?_⟩)
            intro hc
            rcases List.mem_append.mp hc with hc | hc
            · exact h2 hc
            · exact hva (List.mem_singleton.mp hc)

theorem dedupFirst_mem (xs : List String) (v : String) :
    v ∈ dedupFirst xs ↔ v ∈ xs := by
  unfold dedupFirst
  rw [dedupFirstAux_mem]
  simp

theorem dedupFirstAux_nodup (xs : List String) :
    ∀ seen : List String, (dedupFirstAux seen xs).Nodup := by
  induction xs with
  | nil => intro seen; simp [dedupFirstAux]
  | cons a l ih =>
    intro seen
    by_cases h : a ∈ seen
    · rw [dedupFirstAux_cons_mem seen a l (by simpa using h)]
      exact ih seen
    · rw [dedupFirstAux_cons_new seen a l (by simpa using h)]
      refine List.nodup_cons.mpr ⟨?_, ih (seen ++ [a])⟩
      intro hmem
      exact ((dedupFirstAux_mem l (seen ++ [a]) a).mp hmem).2 (by simp)

theorem dedupFirst_nodup (xs : List String) : (dedupFirst xs).Nodup :=
  dedupFirstAux_nodup xs []

theorem dedupFirstAux_length_le (xs : List String) :
    ∀ seen : List String, (dedupFirstAux seen xs).length ≤ xs.length := by
  induction xs with
  | nil => intro seen; simp [dedupFirstAux]
  | cons a l ih =>
    intro seen
    by_cases h : a ∈ seen
    · rw [dedupFirstAux_cons_mem seen a l (by simpa using h)]
      exact Nat.le_succ_of_le (ih seen)
    · rw [dedupFirstAux_cons_new seen a l (by simpa using h)]
      exact Nat.succ_le_succ (ih (seen ++ [a]))

theorem dedupFirst_length_le (xs : List String) :
    (dedupFirst xs).length ≤ xs.length :=
  dedupFirstAux_length_le xs []

/-- Number of in-edges of `v` whose source is not yet processed: the value the
Python counter `in_degree[v]` holds after the sources in `processed` have been
dequeued. -/
def inEdgesFrom (nodes : List ExecutionNode) (processed : List String) (v : String) :
    Nat :=
  ((planEdges nodes).filter (fun e => e.2 == v && !(processed.contains e.1))).length

theorem length_filter_split (l : List (String × String))
    (p q : (String × String) → Bool) :
    (l.filter p).length =
      (l.filter (fun x => p x && q x)).length +
      (l.filter (fun x => p x && !(q x))).length := by
  induction l with
  | nil => rfl
  | cons x l ih =>
    cases hp : p x <;> cases hq : q x <;>
      simp [List.filter_cons, hp, hq, ih] <;> omega

theorem adjOut_count (nodes : List ExecutionNode) (u v : String) :
    (adjOut nodes u).count v =
      ((planEdges nodes).filter (fun e => e.2 == v && e.1 == u)).length := by
  unfold adjOut
  induction planEdges nodes with
  | nil => rfl
  | cons e l ih =>
    cases h1 : (e.1 == u) <;> cases h2 : (e.2 == v) <;>
      simp_all [List.filter_cons, List.count_cons]

theorem inEdgesFrom_step (nodes : List ExecutionNode) (processed : List String)
    (current : String) (hcur : current ∉ processed) (v : String) :
    inEdgesFrom nodes processed v =
      ((planEdges nodes).filter (fun e => e.2 == v && e.1 == current)).length +
      inEdgesFrom nodes (processed ++ [current]) v := by
  unfold inEdgesFrom
  rw [length_filter_split (planEdges nodes)
    (fun e => e.2 == v && !(processed.contains e.1)) (fun e => e.1 == current)]
  congr 1
  · apply congrArg
    apply List.filter_congr
    intro e _
    cases h2 : (e.2 == v) <;> cases h1 : (e.1 == current) <;> simp_all
  · apply congrArg
    apply List.filter_congr
    intro e _
    cases h2 : (e.2 == v) <;> cases h1 : (e.1 == current) <;> simp_all

theorem decNeighbors_deg (neigh : List String) :
    ∀ (deg : String → Int) (acc : List String) (v : String),
      (decNeighbors neigh deg acc).1 v = deg v - (neigh.count v : Int) := by
  induction neigh with
  | nil => intro deg acc v; simp [decNeighbors]
  | cons w vs ih =>
    intro deg acc v
    rw [decNeighbors]
    rw [ih]
    by_cases hvw : v = w
    · subst hvw
      rw [List.count_cons]
      simp
      omega
    · have hb : (v == w) = false := by simpa using hvw
      rw [List.count_cons]
      simp [hb]
      exact fun e => hvw e.symm

theorem decNeighbors_acc_mono (neigh : List String) :
    ∀ (deg : String → Int) (acc : List String) (v : String),
      v ∈ acc → v ∈ (decNeighbors neigh deg acc).2 := by
  induction neigh with
  | nil => intro deg acc v hv; exact hv
  | cons w vs ih =>
    intro deg acc v hv
    rw [decNeighbors]
    apply ih
    by_cases hd : (deg w - 1 == 0)
    · simp only [hd, if_true]
      exact List.mem_append_left _ hv
    · simpa [hd] using hv

theorem decNeighbors_acc_src (neigh : List String) :
    ∀ (deg : String → Int) (acc : List String) (v : String),
      v ∈ (decNeighbors neigh deg acc).2 → v ∈ acc ∨ v ∈ neigh := by
  induction neigh with
  | nil => intro deg acc v hv; exact Or.inl hv
  | cons w vs ih =>
    intro deg acc v hv
    rw [decNeighbors] at hv
    rcases ih _ _ v hv with hv2 | hv2
    · by_cases hd : ((deg w - 1 : Int) == 0)
      · rw [if_pos hd] at hv2
        rcases List.mem_append.mp hv2 with h | h
        · exact Or.inl h
        · rcases List.mem_singleton.mp h with rfl
          exact Or.inr (List.mem_cons_self _ _)
      · rw [if_neg hd] at hv2
        exact Or.inl hv2
    · exact Or.inr (List.mem_cons_of_mem _ hv2)

theorem decNeighbors_acc_pos (neigh : List String) :
    ∀ (deg : String → Int) (acc : List String) (v : String),
      v ∉ acc → v ∈ (decNeighbors neigh deg acc).2 → 1 ≤ deg v := by
  induction neigh with
  | nil =>
    intro deg acc v hnacc hv
    exact absurd hv hnacc
  | cons w vs ih =>
    intro deg acc v hnacc hv
    rw [decNeighbors] at hv
    by_cases hvw : v = w
    · subst hvw
      by_cases hd : ((deg v - 1 : Int) == 0)
      · have : deg v - 1 = 0 := by simpa using hd
        omega
      · rw [if_neg hd] at hv
        have := ih _ _ v hnacc hv
        simp only [beq_self_eq_true, if_true] at this
        omega
    · have hb : (v == w) = false := by simpa using hvw
      by_cases hd : ((deg w - 1 : Int) == 0)
      · rw [if_pos hd] at hv
        have hnacc2 : v ∉ acc ++ [w] := by
          intro hc
          rcases List.mem_append.mp hc with hc | hc
          · exact hnacc hc
          · exact hvw (List.mem_singleton.mp hc)
        have := ih _ _ v hnacc2 hv
        simpa [hb] using this
      · rw [if_neg hd] at hv
        have := ih _ _ v hnacc hv
        simpa [hb] using this

theorem decNeighbors_acc_nodup_le (neigh : List String) :
    ∀ (deg : String → Int) (acc : List String),
      acc.Nodup → (∀ v ∈ acc, deg v ≤ 0) →
      (decNeighbors neigh deg acc).2.Nodup ∧
      (∀ v ∈ (decNeighbors neigh deg acc).2, (decNeighbors neigh deg acc).1 v ≤ 0) := by
  induction neigh with
  | nil =>
    intro deg acc hnodup hle
    exact ⟨hnodup, hle⟩
  | cons w vs ih =>
    intro deg acc hnodup hle
    rw [decNeighbors]
    by_cases hd : ((deg w - 1 : Int) == 0)
    · rw [if_pos hd]
      have hdz : deg w - 1 = 0 := by simpa using hd
      have hwn : w ∉ acc := by
        intro hc
        have := hle w hc
        omega
      apply ih
      · simpa [List.nodup_append] using ⟨hnodup, hwn⟩
      · intro v hv
        rcases List.mem_append.mp hv with hv | hv
        · by_cases hvw : v = w
          · subst hvw
            simp
            omega
          · have hb : (v == w) = false := by simpa using hvw
            simp only [hb, Bool.false_eq_true, if_false]
            exact hle v hv
        · rcases List.mem_singleton.mp hv with rfl
          simp
          omega
    · rw [if_neg hd]
      apply ih
      · exact hnodup
      · intro v hv
        by_cases hvw : v = w
        · subst hvw
          have := hle v hv
          simp
          omega
        · have hb : (v == w) = false := by simpa using hvw
          simp only [hb, Bool.false_eq_true, if_false]
          exact hle v hv

theorem decNeighbors_hit_zero (neigh : List String) :
    ∀ (deg : String → Int) (acc : List String) (v : String),
      1 ≤ deg v → (decNeighbors neigh deg acc).1 v = 0 →
      v ∈ (decNeighbors neigh deg acc).2 := by
  induction neigh with
  | nil =>
    intro deg acc v h1 h0
    simp only [decNeighbors] at h0
    omega
  | cons w vs ih =>
    intro deg acc v h1 h0
    rw [decNeighbors] at h0 ⊢
    by_cases hvw : v = w
    · subst hvw
      by_cases hd : ((deg v - 1 : Int) == 0)
      · rw [if_pos hd]
        apply decNeighbors_acc_mono
        simp
      · rw [if_neg hd] at h0 ⊢
        apply ih _ _ v _ h0
        have hdz : ¬ (deg v - 1 = 0) := by simpa using hd
        simp only [beq_self_eq_true, if_true]
        omega
    · have hb : (v == w) = false := by simpa using hvw
      by_cases hd : ((deg w - 1 : Int) == 0)
      · rw [if_pos hd] at h0 ⊢
        apply ih _ _ v _ h0
        simpa [hb] using h1
      · rw [if_neg hd] at h0 ⊢
        apply ih _ _ v _ h0
        simpa [hb] using h1

theorem planEdges_snd_mem (nodes : List ExecutionNode) (e : String × String)
    (he : e ∈ planEdges nodes) : e.2 ∈ nodeRoleIds nodes := by
  unfold planEdges at he
  rcases List.mem_flatMap.mp he with ⟨n, hn, hm⟩
  rcases List.mem_map.mp hm with ⟨d, _, rfl⟩
  exact List.mem_map.mpr ⟨n, hn, rfl⟩

theorem inEdgesFrom_zero_sources (nodes : List ExecutionNode) (P : List String)
    (v : String) (h : inEdgesFrom nodes P v = 0) :
    ∀ u, (u, v) ∈ planEdges nodes → u ∈ P := by
  intro u hu
  unfold inEdgesFrom at h
  rw [List.length_eq_zero] at h
  by_contra hc
  have hmem : (u, v) ∈ (planEdges nodes).filter
      (fun e => e.2 == v && !(P.contains e.1)) := by
    apply List.mem_filter.mpr
    refine ⟨hu, ?_⟩
    simp [hc]
  rw [h] at hmem
  exact absurd hmem (by simp)

/-- The loop invariant of `_validate_dag`-s Kahn sorting: processed plus
queued ids are distinct keys; the in-degree table counts in-edges from
unprocessed sources; and every touched (processed or queued) id has all its
in-edge sources already processed. -/
structure KahnInv (nodes : List ExecutionNode) (s : KahnState) : Prop where
  nodup : (s.processed ++ s.queue).Nodup
  keys : ∀ v ∈ s.processed ++ s.queue, v ∈ dedupFirst (nodeRoleIds nodes)
  degEq : ∀ v, s.deg v = (inEdgesFrom nodes s.processed v : Int)
  zeroIn : ∀ v ∈ s.processed ++ s.queue, inEdgesFrom nodes s.processed v = 0

theorem initInDeg_eq (nodes : List ExecutionNode) (v : String) :
    initInDeg nodes v = (inEdgesFrom nodes [] v : Int) := by
  unfold initInDeg inEdgesFrom
  norm_cast
  apply congrArg
  apply List.filter_congr
  intro e _
  simp

theorem kahnInit_inv (nodes : List ExecutionNode) : KahnInv nodes (kahnInit nodes) := by
  refine ⟨?_, ?_, ?_, ?_⟩
  · simp only [kahnInit, List.nil_append]
    exact (dedupFirst_nodup _).filter _
  · intro v hv
    simp only [kahnInit, List.nil_append] at hv
    exact (List.mem_filter.mp hv).1
  · intro v
    exact initInDeg_eq nodes v
  · intro v hv
    simp only [kahnInit, List.nil_append] at hv
    have h := (List.mem_filter.mp hv).2
    have h2 : initInDeg nodes v = 0 := by simpa using h
    rw [initInDeg_eq nodes v] at h2
    exact_mod_cast h2

theorem kahnStep_inv (nodes : List ExecutionNode) (s : KahnState) (current : String)
    (rest : List String) (hq : s.queue = current :: rest) (hinv : KahnInv nodes s) :
    KahnInv nodes
      { deg := (decNeighbors (adjOut nodes current) s.deg []).1,
        queue := rest ++ (decNeighbors (adjOut nodes current) s.deg []).2,
        processed := s.processed ++ [current] } := by
  obtain ⟨hnodup, hkeys, hdegEq, hzeroIn⟩ := hinv
  rw [hq] at hnodup hkeys hzeroIn
  have hnodup2 : ((s.processed ++ [current]) ++ rest).Nodup := by
    have : s.processed ++ current :: rest = (s.processed ++ [current]) ++ rest := by
      simp
    rw [← this]
    exact hnodup
  have hcur_np : current ∉ s.processed := by
    intro hc
    have h1 := List.nodup_append.mp hnodup
    exact h1.2.2 hc (List.mem_cons_self _ _)
  have hstep : ∀ v, inEdgesFrom nodes s.processed v =
      ((planEdges nodes).filter (fun e => e.2 == v && e.1 == current)).length +
      inEdgesFrom nodes (s.processed ++ [current]) v :=
    fun v => inEdgesFrom_step nodes s.processed current hcur_np v
  have hdeg2 : ∀ v, (decNeighbors (adjOut nodes current) s.deg []).1 v =
      (inEdgesFrom nodes (s.processed ++ [current]) v : Int) := by
    intro v
    rw [decNeighbors_deg, hdegEq v, adjOut_count, hstep v]
    push_cast
    ring
  have hnewly := decNeighbors_acc_nodup_le (adjOut nodes current) s.deg []
    (by simp) (by simp)
  have hnewly_zero : ∀ v ∈ (decNeighbors (adjOut nodes current) s.deg []).2,
      inEdgesFrom nodes (s.processed ++ [current]) v = 0 := by
    intro v hv
    have h1 := hnewly.2 v hv
    have h2 := hdeg2 v
    omega
  have hnewly_pos : ∀ v ∈ (decNeighbors (adjOut nodes current) s.deg []).2,
      1 ≤ inEdgesFrom nodes s.processed v := by
    intro v hv
    have h1 := decNeighbors_acc_pos (adjOut nodes current) s.deg [] v (by simp) hv
    rw [hdegEq v] at h1
    omega
  have hnewly_fresh : ∀ v ∈ (decNeighbors (adjOut nodes current) s.deg []).2,
      v ∉ s.processed ++ current :: rest := by
    intro v hv hc
    have h1 := hzeroIn v hc
    have h2 := hnewly_pos v hv
    omega
  have hnewly_keys : ∀ v ∈ (decNeighbors (adjOut nodes current) s.deg []).2,
      v ∈ dedupFirst (nodeRoleIds nodes) := by
    intro v hv
    rcases decNeighbors_acc_src (adjOut nodes current) s.deg [] v hv with h | h
    · exact absurd h (by simp)
    · unfold adjOut at h
      rcases List.mem_map.mp h with ⟨e, he, rfl⟩
      rw [dedupFirst_mem]
      exact planEdges_snd_mem nodes e (List.mem_filter.mp he).1
  have hold_mem : ∀ v, v ∈ (s.processed ++ [current]) ++ rest →
      v ∈ s.processed ++ current :: rest := by
    intro v hv
    have : s.processed ++ current :: rest = (s.processed ++ [current]) ++ rest := by
      simp
    rw [this]
    exact hv
  have hold_zero : ∀ v, v ∈ s.processed ++ current :: rest →
      inEdgesFrom nodes (s.processed ++ [current]) v = 0 := by
    intro v hv
    have h1 := hzeroIn v hv
    have h2 := hstep v
    omega
  refine ⟨?_, ?_, hdeg2, ?_⟩
  · show (((s.processed ++ [current]) ++
      (rest ++ (decNeighbors (adjOut nodes current) s.deg []).2))).Nodup
    rw [← List.append_assoc]
    rw [List.nodup_append]
    refine ⟨hnodup2, hnewly.1, ?_⟩
    intro a ha hb
    exact hnewly_fresh a hb (hold_mem a ha)
  · intro v hv
    rw [← List.append_assoc] at hv
    rcases List.mem_append.mp hv with hv | hv
    · exact hkeys v (hold_mem v hv)
    · exact hnewly_keys v hv
  · intro v hv
    rw [← List.append_assoc] at hv
    rcases List.mem_append.mp hv with hv | hv
    · exact hold_zero v (hold_mem v hv)
    · exact hnewly_zero v hv

theorem kahnLoop_step (nodes : List ExecutionNode) (fuel : Nat) (s : KahnState)
    (current : String) (rest : List String) (hq : s.queue = current :: rest) :
    kahnLoop nodes (fuel + 1) s =
      kahnLoop nodes fuel
        { deg := (decNeighbors (adjOut nodes current) s.deg []).1,
          queue := rest ++ (decNeighbors (adjOut nodes current) s.deg []).2,
          processed := s.processed ++ [current] } := by
  conv_lhs => unfold kahnLoop
  rw [hq]

theorem kahnLoop_stop (nodes : List ExecutionNode) (fuel : Nat) (s : KahnState)
    (hq : s.queue = []) : kahnLoop nodes (fuel + 1) s = s := by
  conv_lhs => unfold kahnLoop
  rw [hq]

theorem kahnLoop_inv_cyc (nodes : List ExecutionNode) (S : List String)
    (hS : ∀ a ∈ S, ∃ u ∈ S, (u, a) ∈ planEdges nodes) :
    ∀ (fuel : Nat) (s : KahnState), KahnInv nodes s →
      (∀ a ∈ S, a ∉ s.processed ++ s.queue) →
      KahnInv nodes (kahnLoop nodes fuel s) ∧
      (∀ a ∈ S, a ∉ (kahnLoop nodes fuel s).processed ++ (kahnLoop nodes fuel s).queue) := by
  intro fuel
  induction fuel with
  | zero =>
    intro s hinv hcyc
    exact ⟨hinv, hcyc⟩
  | succ fuel ih =>
    intro s hinv hcyc
    cases hq : s.queue with
    | nil =>
      rw [kahnLoop_stop nodes fuel s hq]
      exact ⟨hinv, hcyc⟩
    | cons current rest =>
      rw [kahnLoop_step nodes fuel s current rest hq]
      have hinv2 := kahnStep_inv nodes s current rest hq hinv
      apply ih _ hinv2
      intro a ha hmem
      have hold : a ∉ s.processed ++ s.queue := hcyc a ha
      rw [hq] at hold
      rcases List.mem_append.mp hmem with h | h
      · rcases List.mem_append.mp h with h | h
        · exact hold (List.mem_append_left _ h)
        · rcases List.mem_singleton.mp h with rfl
          exact hold (List.mem_append_right _ (List.mem_cons_self _ _))
      · rcases List.mem_append.mp h with h | h
        · exact hold (List.mem_append_right _ (List.mem_cons_of_mem _ h))
        · have hzero := hinv2.zeroIn a
            (List.mem_append_right _ (List.mem_append_right _ h))
          rcases hS a ha with ⟨u, hu, hedge⟩
          have husrc := inEdgesFrom_zero_sources nodes (s.processed ++ [current]) a
            hzero u hedge
          have holdu : u ∉ s.processed ++ s.queue := hcyc u hu
          rw [hq] at holdu
          rcases List.mem_append.mp husrc with h2 | h2
          · exact holdu (List.mem_append_left _ h2)
          · rcases List.mem_singleton.mp h2 with rfl
            exact holdu (List.mem_append_right _ (List.mem_cons_self _ _))

theorem kahnLoop_queue_empty (nodes : List ExecutionNode) :
    ∀ (fuel : Nat) (s : KahnState), KahnInv nodes s →
      (dedupFirst (nodeRoleIds nodes)).length ≤ fuel + s.processed.length →
      (kahnLoop nodes fuel s).queue = [] := by
  intro fuel
  induction fuel with
  | zero =>
    intro s hinv hle
    have hsub : (s.processed ++ s.queue) ⊆ dedupFirst (nodeRoleIds nodes) := hinv.keys
    have hlen := (List.subperm_of_subset hinv.nodup hsub).length_le
    rw [List.length_append] at hlen
    have : s.queue.length = 0 := by omega
    exact List.length_eq_zero.mp this
  | succ fuel ih =>
    intro s hinv hle
    cases hq : s.queue with
    | nil => rw [kahnLoop_stop nodes fuel s hq]; exact hq
    | cons current rest =>
      rw [kahnLoop_step nodes fuel s current rest hq]
      apply ih _ (kahnStep_inv nodes s current rest hq hinv)
      simp only [List.length_append, List.length_singleton]
      omega

/-- Fuel adequacy for `validateDag`: with fuel `nodes.length` the Kahn loop
always drains its queue, so the fuel-indexed model coincides with the
unbounded Python `while queue:` loop. -/
theorem validateDag_fuel_adequate (nodes : List ExecutionNode) :
    (kahnLoop nodes nodes.length (kahnInit nodes)).queue = [] := by
  apply kahnLoop_queue_empty nodes nodes.length (kahnInit nodes) (kahnInit_inv nodes)
  have h1 : (dedupFirst (nodeRoleIds nodes)).length ≤ (nodeRoleIds nodes).length :=
    dedupFirst_length_le _
  have h2 : (nodeRoleIds nodes).length = nodes.length := List.length_map _ _
  simp only [kahnInit]
  omega

theorem validateDag_false_of_support (nodes : List ExecutionNode) (S : List String)
    (hne : S ≠ []) (hS : ∀ a ∈ S, ∃ u ∈ S, (u, a) ∈ planEdges nodes) :
    validateDag nodes = false := by
  have hinit_cyc : ∀ a ∈ S, a ∉ (kahnInit nodes).processed ++ (kahnInit nodes).queue := by
    intro a ha hmem
    simp only [kahnInit, List.nil_append] at hmem
    have h0 : initInDeg nodes a = 0 := by
      simpa using (List.mem_filter.mp hmem).2
    rw [initInDeg_eq] at h0
    have h1 : inEdgesFrom nodes [] a = 0 := by exact_mod_cast h0
    rcases hS a ha with ⟨u, _, hedge⟩
    have := inEdgesFrom_zero_sources nodes [] a h1 u hedge
    exact absurd this (by simp)
  obtain ⟨hinvF, hcycF⟩ := kahnLoop_inv_cyc nodes S hS nodes.length (kahnInit nodes)
    (kahnInit_inv nodes) hinit_cyc
  rcases List.exists_mem_of_ne_nil S hne with ⟨a0, ha0⟩
  have ha0_key : a0 ∈ dedupFirst (nodeRoleIds nodes) := by
    rcases hS a0 ha0 with ⟨u, _, hedge⟩
    rw [dedupFirst_mem]
    exact planEdges_snd_mem nodes (u, a0) hedge
  have ha0_np : a0 ∉ (kahnLoop nodes nodes.length (kahnInit nodes)).processed := by
    intro hc
    exact hcycF a0 ha0 (List.mem_append_left _ hc)
  have hpnodup : (kahnLoop nodes nodes.length (kahnInit nodes)).processed.Nodup :=
    hinvF.nodup.of_append_left
  have hsub : (kahnLoop nodes nodes.length (kahnInit nodes)).processed ⊆
      (dedupFirst (nodeRoleIds nodes)).erase a0 := by
    intro x hx
    have hxk := hinvF.keys x (List.mem_append_left _ hx)
    have hxa : x ≠ a0 := by
      intro h
      exact ha0_np (h ▸ hx)
    exact (List.mem_erase_of_ne hxa).mpr hxk
  have hlen := (List.subperm_of_subset hpnodup hsub).length_le
  rw [List.length_erase_of_mem ha0_key] at hlen
  have hk1 : 1 ≤ (dedupFirst (nodeRoleIds nodes)).length :=
    List.length_pos.mpr (List.ne_nil_of_mem ha0_key)
  have hk2 : (dedupFirst (nodeRoleIds nodes)).length ≤ nodes.length := by
    have := dedupFirst_length_le (nodeRoleIds nodes)
    have h2 : (nodeRoleIds nodes).length = nodes.length := List.length_map _ _
    omega
  unfold validateDag
  simp only [beq_eq_false_iff_ne, ne_eq]
  omega

/-- The in-plan dependency edge relation: `planEdgeRel nodes u v` holds when
some node with id `v` depends on `u` and `u` is itself a node id. -/
def planEdgeRel (nodes : List ExecutionNode) (u v : String) : Prop :=
  (u, v) ∈ planEdges nodes

/-- The dependency graph of the plan contains a cycle: a closed non-empty
chain of in-plan edges. -/
def HasCycle (nodes : List ExecutionNode) : Prop :=
  ∃ (a : String) (p : List String), List.Chain (planEdgeRel nodes) a (p ++ [a])

theorem chain_pred {R : String → String → Prop} :
    ∀ (a : String) (l : List String), List.Chain R a l →
      ∀ v ∈ l, ∃ u ∈ a :: l, R u v := by
  intro a l
  induction l generalizing a with
  | nil =>
    intro _ v hv
    exact absurd hv (by simp)
  | cons b l2 ih =>
    intro hchain v hv
    cases hchain with
    | cons hab hchain2 =>
      rcases List.mem_cons.mp hv with rfl | hv2
      · exact ⟨a, List.mem_cons_self _ _, hab⟩
      · rcases ih b hchain2 v hv2 with ⟨u, hu, hR⟩
        exact ⟨u, List.mem_cons_of_mem _ hu, hR⟩

theorem hasCycle_support (nodes : List ExecutionNode) (h : HasCycle nodes) :
    ∃ S : List String, S ≠ [] ∧ ∀ v ∈ S, ∃ u ∈ S, (u, v) ∈ planEdges nodes := by
  rcases h with ⟨a, p, hchain⟩
  refine ⟨a :: p, by simp, ?_⟩
  have hshrink : ∀ u, u ∈ a :: (p ++ [a]) → u ∈ a :: p := by
    intro u hu
    rcases List.mem_cons.mp hu with rfl | hu2
    · exact List.mem_cons_self _ _
    · rcases List.mem_append.mp hu2 with hu3 | hu3
      · exact List.mem_cons_of_mem _ hu3
      · rcases List.mem_singleton.mp hu3 with rfl
        exact List.mem_cons_self _ _
  intro v hv
  have hv2 : v ∈ p ++ [a] := by
    rcases List.mem_cons.mp hv with rfl | hv2
    · exact List.mem_append_right _ (List.mem_singleton.mpr rfl)
    · exact List.mem_append_left _ hv2
  rcases chain_pred a (p ++ [a]) hchain v hv2 with ⟨u, hu, hR⟩
  exact ⟨u, hshrink u hu, hR⟩

/-- C1 (amended): for every plan whose dependency graph contains a cycle,
`_validate_dag` reports failure — the removed (visited) count falls short of
the node count — and the parser then strips every node's `depends_on` to
empty, keeping the nodes themselves in order. -/
theorem c1_cycle_neutralized (nodes : List ExecutionNode) (h : HasCycle nodes) :
    validateDag nodes = false ∧
    nodeRoleIds (neutralizePlan nodes) = nodeRoleIds nodes ∧
    ∀ n ∈ neutralizePlan nodes, n.depends_on = [] := by
  rcases hasCycle_support nodes h with ⟨S, hne, hS⟩
  have hfalse : validateDag nodes = false := validateDag_false_of_support nodes S hne hS
  refine ⟨hfalse, ?_, ?_⟩
  · unfold neutralizePlan
    rw [hfalse]
    simp [nodeRoleIds]
  · unfold neutralizePlan
    rw [hfalse]
    intro n hn
    simp only [Bool.false_eq_true, if_false] at hn
    rcases List.mem_map.mp hn with ⟨m, _, rfl⟩
    rfl

/-- C1 counterexample (to the stated equivalence): a plan repeating one
role id has no cycle in its dependency graph, yet `_validate_dag` removes
only one id against two nodes and reports failure — so "a cycle exists iff
the number of removed nodes is less than the total" is false as stated. -/
theorem c1_counterexample_duplicate_ids :
    validateDag [⟨"financial_advisor", []⟩, ⟨"financial_advisor", []⟩] = false ∧
    ¬ HasCycle [⟨"financial_advisor", []⟩, ⟨"financial_advisor", []⟩] := by
  constructor
  · decide
  · rintro ⟨a, p, hchain⟩
    have hedges : planEdges [⟨"financial_advisor", []⟩, ⟨"financial_advisor", []⟩]
        = [] := rfl
    cases p with
    | nil =>
      cases hchain with
      | cons hrel _ =>
        rw [planEdgeRel, hedges] at hrel
        exact absurd hrel (by simp)
    | cons b p2 =>
      cases hchain with
      | cons hrel _ =>
        rw [planEdgeRel, hedges] at hrel
        exact absurd hrel (by simp)

/-- Witness for C1 (amended): a concrete two-node cyclic plan is detected and
neutralized. -/
theorem c1_cycle_neutralized_witness :
    validateDag [⟨"a", ["b"]⟩, ⟨"b", ["a"]⟩] = false ∧
    nodeRoleIds (neutralizePlan [⟨"a", ["b"]⟩, ⟨"b", ["a"]⟩]) = ["a", "b"] ∧
    ∀ n ∈ neutralizePlan [⟨"a", ["b"]⟩, ⟨"b", ["a"]⟩], n.depends_on = [] := by
  have h := c1_cycle_neutralized [⟨"a", ["b"]⟩, ⟨"b", ["a"]⟩]
    ⟨"a", ["b"], List.Chain.cons
      (show ("a", "b") ∈ planEdges [⟨"a", ["b"]⟩, ⟨"b", ["a"]⟩] by decide)
      (List.Chain.cons
        (show ("b", "a") ∈ planEdges [⟨"a", ["b"]⟩, ⟨"b", ["a"]⟩] by decide)
        List.Chain.nil)⟩
  exact ⟨h.1, h.2.1.trans (by decide), h.2.2⟩
